import Mathlib

/-!
Verification development for the `pytorch_tools` training-loop driver
(`pytorch_tools/fit_wrapper/wrapper.py`) and the Unet decoder
(`pytorch_tools/segmentation_models/unet.py`).

The driver (`Runner.fit` / `Runner.evaluate` / `Runner._run_one_epoch` /
`Runner._make_step`) is embedded as a pure interpreter.  Effects that the
specification treats as observable are made explicit:

* every callback-hook broadcast is appended to a trace together with the
  full run context visible to callbacks at that moment;
* meters live in an explicit heap (`RState.heap`) indexed by natural
  numbers, so that Python object identity (mutation in place versus
  `copy`) is captured: the live loss meter is cell `0`, the live metric
  meters are cells `1 .. nm`, and every `copy(...)` allocates a fresh
  cell.  Snapshot fields (`train_loss`, ...) hold cell indices, exactly
  like Python references;
* Python exceptions are modelled with `Except`: `len(loader)` on a source
  without `__len__` raises, the one-argument `hasattr(tqdm._instances)`
  call in the verbose branch raises, a callback hook may raise (injected
  through `hs : ℕ → Option ℕ`, indexed by the global hook-invocation
  counter), and the forward/criterion/metric computation of a batch may
  raise (carried by the batch itself).

Model/optimizer/criterion/metrics are opaque collaborators: a batch
carries the scalar loss value and the scalar metric values that the
criterion and the metric functions produce on it, and the optimizer is
represented by its observable call counters (`zero_grad`, `step`).
-/

/-- Modelled from the spec: the running-average meter of §3/§4.1
(its source, `pytorch_tools/fit_wrapper/state.py`, is not among the
sources).  It keeps a cumulative `sum`/`count` and an exponentially
smoothed value re-seeded by the first update after a reset. -/
structure Meter where
  sum : ℚ
  count : ℕ
  smooth : Option ℚ
  deriving DecidableEq, Repr

/-- Modelled from the spec: the smoothing decay constant of §3; its exact
value is irrelevant to every claim below. -/
def smoothDecay : ℚ := 9 / 10

/-- Fresh meter, as built by the run-context constructor and by `reset`. -/
def Meter.init : Meter := ⟨0, 0, none⟩

/-- Modelled from the spec: `reset()` clears `sum`, `count` and re-seeds
smoothing on the next update. -/
def Meter.reset (_m : Meter) : Meter := Meter.init

/-- Modelled from the spec: `update(value)` records one observation;
`smoothed = decay*smoothed + (1-decay)*value`, seeded by the first value. -/
def Meter.update (m : Meter) (v : ℚ) : Meter :=
  ⟨m.sum + v, m.count + 1,
    some (match m.smooth with
      | none => v
      | some s => smoothDecay * s + (1 - smoothDecay) * v)⟩

/-- Modelled from the spec: `avg = sum/count` after at least one update,
zero before any update. -/
def Meter.avg (m : Meter) : ℚ := if m.count = 0 then 0 else m.sum / m.count

/-- Modelled from the spec: the smoothed average surfaced by the verbose
progress readout. -/
def Meter.avg_smooth (m : Meter) : ℚ := (m.smooth).getD 0

/-- Cumulative meter obtained by updating a fresh meter with a stream of
values (specification-side description of "cumulative average over the
processed batches"). -/
def meterOf (vs : List ℚ) : Meter := vs.foldl Meter.update Meter.init

/-- Outcome of the forward/criterion/metric computation on one batch:
either some stage raises (exception payload `code`), or it produces the
scalar loss value and the scalar value of each metric function
(the value of metric `j` is `metricVals.getD j 0`). -/
inductive StepRes where
  | exc (code : ℕ)
  | val (lossVal : ℚ) (metricVals : List ℚ)
  deriving DecidableEq, Repr

/-- One batch yielded by a data source, together with the outcome the
opaque model/criterion/metrics produce on it. -/
structure Batch where
  res : StepRes
  deriving DecidableEq, Repr

/-- A data source: a finite, restartable sequence of batches.  `hasLen`
states whether the source exposes `__len__`; `batch_size` whether it
exposes a batch size attribute. -/
structure Loader where
  batches : List Batch
  hasLen : Bool
  batch_size : Option ℕ
  deriving DecidableEq, Repr

/-- Python exceptions that can surface out of the driver. -/
inductive Err where
  /-- `len(loader)` on a source with no `__len__`. -/
  | lenTypeError
  /-- the one-argument call `hasattr(tqdm._instances)` in the verbose
  branch of `_run_one_epoch` (`hasattr` requires two arguments). -/
  | hasattrTypeError
  /-- an exception raised inside a callback hook. -/
  | hookExc (code : ℕ)
  /-- an exception raised inside the single-step logic
  (forward / criterion / backward / optimizer / metric). -/
  | stepExc (code : ℕ)
  deriving DecidableEq, Repr

/-- The mutable run context (`RunnerState`; modelled from the spec's
RunContext, §3, its source file not being among the sources, with the
field set read off `wrapper.py`).  The live loss meter is heap cell `0`
and the live metric meters are heap cells `1 .. nm` — those indices are
fixed at construction and never reassigned, so they are kept implicit.
Snapshot fields hold heap-cell indices, i.e. Python references. -/
structure RState where
  heap : List Meter
  train_loss : Option ℕ
  train_metrics : List ℕ
  val_loss : Option ℕ
  val_metrics : List ℕ
  epoch : ℕ
  num_epochs : ℕ
  step : ℕ
  ep_size : ℕ
  is_train : Bool
  model_train_mode : Bool
  batch_size : ℕ
  zero_grad_calls : ℕ
  opt_step_calls : ℕ
  deriving DecidableEq, Repr

/-- Dereference a meter heap cell. -/
def RState.mget (st : RState) (i : ℕ) : Meter := st.heap.getD i Meter.init

/-- Mutate a meter heap cell in place. -/
def RState.mset (st : RState) (i : ℕ) (m : Meter) : RState :=
  { st with heap := st.heap.set i m }

/-- Allocate a fresh meter object (`copy` in Python allocates); returns
the new state and the fresh cell's index. -/
def RState.alloc (st : RState) (m : Meter) : RState × ℕ :=
  ({ st with heap := st.heap ++ [m] }, st.heap.length)

/-- The run context as built by the `Runner` constructor for `nm` metric
functions: fresh loss meter at cell `0`, fresh metric meters at cells
`1 .. nm`, no snapshots yet. -/
def RState.mk0 (nm : ℕ) : RState :=
  { heap := List.replicate (nm + 1) Meter.init
    train_loss := none
    train_metrics := []
    val_loss := none
    val_metrics := []
    epoch := 0
    num_epochs := 1
    step := 0
    ep_size := 0
    is_train := true
    model_train_mode := true
    batch_size := 1
    zero_grad_calls := 0
    opt_step_calls := 0 }

/-- The six lifecycle hooks broadcast by the callback dispatcher. -/
inductive Hook where
  | on_train_begin
  | on_epoch_begin
  | on_batch_begin
  | on_batch_end
  | on_epoch_end
  | on_train_end
  deriving DecidableEq, Repr

/-- The observable record of one hook broadcast: the hook and the run
context the callbacks see at that moment. -/
abbrev Trace := List (Hook × RState)

/-- Modelled from the spec: the callback dispatcher (§4.2; its source,
`pytorch_tools/fit_wrapper/callbacks.py`, is not among the sources)
broadcasts an event to the callbacks in registration order and catches
nothing.  `hs k` injects the exception a callback raises during the
`k`-th hook broadcast of the run (`none` = all callbacks complete).  On
success the broadcast is appended to the trace; on failure it aborts. -/
def callHook (hs : ℕ → Option ℕ) (h : Hook) (st : RState) (tr : Trace) (k : ℕ) :
    Trace × Except Err ℕ :=
  match hs k with
  | some c => (tr, .error (.hookExc c))
  | none => (tr ++ [(h, st)], .ok (k + 1))

/-- A left-to-right pass over the live metric-meter cells `1 .. nm`,
applying `g j` to meter `j` in place (the shape shared by the reset loop
and the update loop of the driver). -/
def cellsFold (nm : ℕ) (g : ℕ → Meter → Meter) (st : RState) : RState :=
  (List.range nm).foldl (fun s j => s.mset (j + 1) (g j (s.mget (j + 1)))) st

/-- Update loop of `_make_step` over the metric meters:
`for metric, meter in zip(self.state.metrics, self.state.metric_meters):
meter.update(to_numpy(metric(output, target).squeeze()))` — meter `j`
lives at heap cell `j+1` and receives the value of metric `j`. -/
def metricFold (nm : ℕ) (f : ℕ → ℚ) (st : RState) : RState :=
  cellsFold nm (fun j m => m.update (f j)) st

/-- Reset loop of `_run_one_epoch` over the metric meters:
`for metric in self.state.metric_meters: metric.reset()`. -/
def metricReset (nm : ℕ) (st : RState) : RState :=
  cellsFold nm (fun _ m => m.reset) st

/-- `Runner._make_step` (wrapper.py lines 51-68): forward, criterion,
then — only when `is_train` — `optimizer.zero_grad()`, scaled backward,
`optimizer.step()` and the device barrier, and finally the loss- and
metric-meter updates (the meter updates run in both modes).  The
recording of `state.input`/`state.output` carries no information the
claims observe and is omitted. -/
def Runner._make_step (nm : ℕ) (b : Batch) (st : RState) : Except Err RState :=
  match b.res with
  | .exc c => .error (.stepExc c)
  | .val lossVal metricVals =>
    let st := if st.is_train then
        { st with zero_grad_calls := st.zero_grad_calls + 1,
                  opt_step_calls := st.opt_step_calls + 1 }
      else st
    let st := st.mset 0 ((st.mget 0).update lossVal)
    .ok (metricFold nm (fun j => metricVals.getD j 0) st)

/-- The batch loop of `_run_one_epoch` (wrapper.py lines 89-97):
`for i, batch in pbar:` — sets `state.step`, broadcasts `on_batch_begin`,
runs `_make_step`, broadcasts `on_batch_end`.  Note the loop runs over
the whole source; nothing bounds it to `ep_size`. -/
def runBatches (hs : ℕ → Option ℕ) (nm : ℕ) (bs : List Batch) (i : ℕ)
    (st : RState) (tr : Trace) (k : ℕ) : Trace × Except Err (RState × ℕ) :=
  match bs with
  | [] => (tr, .ok (st, k))
  | b :: rest =>
    let st := { st with step := i }
    match callHook hs .on_batch_begin st tr k with
    | (tr, .error e) => (tr, .error e)
    | (tr, .ok k) =>
      match Runner._make_step nm b st with
      | .error e => (tr, .error e)
      | .ok st =>
        match callHook hs .on_batch_end st tr k with
        | (tr, .error e) => (tr, .error e)
        | (tr, .ok k) => runBatches hs nm rest (i + 1) st tr k

/-- `len(loader)`: raises `TypeError` when the source exposes no length. -/
def pyLen (loader : Loader) : Except Err ℕ :=
  if loader.hasLen then .ok loader.batches.length else .error .lenTypeError

/-- `steps or len(loader)` (wrapper.py line 75): Python `or` evaluates
`len(loader)` whenever `steps` is falsy, i.e. `None` or `0`. -/
def stepsOrLen (steps : Option ℕ) (loader : Loader) : Except Err ℕ :=
  match steps with
  | some s => if s = 0 then pyLen loader else .ok s
  | none => pyLen loader

/-- `Runner._run_one_epoch` (wrapper.py lines 70-98): resets the loss
meter, the timer and every metric meter, computes
`ep_size = steps or len(loader)`, then — when verbose — evaluates
`hasattr(tqdm._instances)`, a one-argument `hasattr` call that raises,
and otherwise runs the batch loop over `enumerate(loader)`.  The timer
reset and the scoped `set_grad_enabled` toggle have no effect any claim
observes and are not modelled. -/
def Runner._run_one_epoch (hs : ℕ → Option ℕ) (nm : ℕ) (verbose : Bool)
    (loader : Loader) (steps : Option ℕ) (st : RState) (tr : Trace) (k : ℕ) :
    Trace × Except Err (RState × ℕ) :=
  let st := st.mset 0 ((st.mget 0).reset)
  let st := metricReset nm st
  match stepsOrLen steps loader with
  | .error e => (tr, .error e)
  | .ok n =>
    let st := { st with ep_size := n }
    if verbose then (tr, .error .hasattrTypeError)
    else runBatches hs nm loader.batches 0 st tr k

/-- `Runner.evaluate` (wrapper.py lines 45-49): sets `is_train = False`,
switches the model to evaluation mode, runs the inner epoch loop and
returns `(loss_meter.avg, [m.avg for m in metric_meters])`. -/
def Runner.evaluate (hs : ℕ → Option ℕ) (nm : ℕ) (verbose : Bool)
    (loader : Loader) (steps : Option ℕ) (st : RState) (tr : Trace) (k : ℕ) :
    Trace × Except Err (RState × ℕ × (ℚ × List ℚ)) :=
  let st := { st with is_train := false, model_train_mode := false }
  match Runner._run_one_epoch hs nm verbose loader steps st tr k with
  | (tr, .error e) => (tr, .error e)
  | (tr, .ok (st, k)) =>
    (tr, .ok (st, k,
      ((st.mget 0).avg, (List.range nm).map (fun j => (st.mget (j + 1)).avg))))

/-- `copy(meter)` on the meter at cell `i`: `copy.copy` allocates a new
object whose scalar fields equal the original's. -/
def copyMeter (st : RState) (i : ℕ) : RState × ℕ := st.alloc (st.mget i)

/-- Fresh copies of the meters at the given cells, in list order,
returning the list of new cell indices
(`[copy(m) for m in self.state.metric_meters]`). -/
def copyMeters (st : RState) : List ℕ → RState × List ℕ
  | [] => (st, [])
  | i :: rest =>
    let p := copyMeter st i
    let q := copyMeters p.1 rest
    (q.1, p.2 :: q.2)

/-- Heap cells of the live metric meters, in declaration order. -/
def metricIdxs (nm : ℕ) : List ℕ := (List.range nm).map (· + 1)

/-- `self.state.train_loss = copy(self.state.loss_meter)` followed by
`self.state.train_metrics = [copy(m) for m in self.state.metric_meters]`
(wrapper.py lines 35-36): fresh copies, then the snapshot references are
re-bound to them. -/
def snapTrain (nm : ℕ) (st : RState) : RState :=
  let p := copyMeter st 0
  let st := { p.1 with train_loss := some p.2 }
  let q := copyMeters st (metricIdxs nm)
  { q.1 with train_metrics := q.2 }

/-- `self.state.val_loss = copy(self.state.loss_meter)` followed by
`self.state.val_metrics = [copy(m) for m in self.state.metric_meters]`
(wrapper.py lines 40-41). -/
def snapVal (nm : ℕ) (st : RState) : RState :=
  let p := copyMeter st 0
  let st := { p.1 with val_loss := some p.2 }
  let q := copyMeters st (metricIdxs nm)
  { q.1 with val_metrics := q.2 }

/-- The body of `fit`'s `for epoch in range(start_epoch, epochs)` loop
(wrapper.py lines 29-42), over the explicit list of epoch indices: per
epoch — set `is_train`/`epoch`, broadcast `on_epoch_begin`, switch the
model to training mode, run the inner epoch loop on the training source,
snapshot `train_loss`/`train_metrics` as fresh copies, optionally run
`evaluate` on the validation source (its return value is discarded) and
snapshot `val_loss`/`val_metrics`, broadcast `on_epoch_end`. -/
def Runner.fitEpochs (hs : ℕ → Option ℕ) (nm : ℕ) (verbose : Bool)
    (train_loader : Loader) (steps_per_epoch : Option ℕ)
    (val_loader : Option Loader) (val_steps : Option ℕ)
    (es : List ℕ) (st : RState) (tr : Trace) (k : ℕ) :
    Trace × Except Err (RState × ℕ) :=
  match es with
  | [] => (tr, .ok (st, k))
  | e :: rest =>
    let st := { st with is_train := true, epoch := e }
    match callHook hs .on_epoch_begin st tr k with
    | (tr, .error err) => (tr, .error err)
    | (tr, .ok k) =>
      let st := { st with model_train_mode := true }
      match Runner._run_one_epoch hs nm verbose train_loader steps_per_epoch st tr k with
      | (tr, .error err) => (tr, .error err)
      | (tr, .ok (st, k)) =>
        let st := snapTrain nm st
        let valRes : Trace × Except Err (RState × ℕ) :=
          match val_loader with
          | none => (tr, .ok (st, k))
          | some vl =>
            match Runner.evaluate hs nm verbose vl val_steps st tr k with
            | (tr, .error err) => (tr, .error err)
            | (tr, .ok (st, k, _)) => (tr, .ok (snapVal nm st, k))
        match valRes with
        | (tr, .error err) => (tr, .error err)
        | (tr, .ok (st, k)) =>
          match callHook hs .on_epoch_end st tr k with
          | (tr, .error err) => (tr, .error err)
          | (tr, .ok k) =>
            Runner.fitEpochs hs nm verbose train_loader steps_per_epoch
              val_loader val_steps rest st tr k

/-- `Runner.fit` (wrapper.py lines 23-43): records `num_epochs` and a
best-effort `batch_size` into the context, broadcasts `on_train_begin`,
runs the epoch loop over `range(start_epoch, epochs)`, and broadcasts
`on_train_end`.  The run starts with an empty trace and hook counter 0. -/
def Runner.fit (hs : ℕ → Option ℕ) (nm : ℕ) (verbose : Bool) (st : RState)
    (train_loader : Loader) (steps_per_epoch : Option ℕ)
    (val_loader : Option Loader) (val_steps : Option ℕ)
    (epochs : ℕ) (start_epoch : ℕ) : Trace × Except Err (RState × ℕ) :=
  let st := { st with num_epochs := epochs,
                      batch_size := train_loader.batch_size.getD 1 }
  match callHook hs .on_train_begin st [] 0 with
  | (tr, .error e) => (tr, .error e)
  | (tr, .ok k) =>
    match Runner.fitEpochs hs nm verbose train_loader steps_per_epoch
        val_loader val_steps (List.range' start_epoch (epochs - start_epoch)) st tr k with
    | (tr, .error e) => (tr, .error e)
    | (tr, .ok (st, k)) =>
      match callHook hs .on_train_end st tr k with
      | (tr, .error e) => (tr, .error e)
      | (tr, .ok k) => (tr, .ok (st, k))

/-- A whole `fit` call on a freshly constructed `Runner` with `nm`
metric functions. -/
def Runner.fitRun (hs : ℕ → Option ℕ) (nm : ℕ) (verbose : Bool)
    (train_loader : Loader) (steps_per_epoch : Option ℕ)
    (val_loader : Option Loader) (val_steps : Option ℕ)
    (epochs : ℕ) (start_epoch : ℕ) : Trace × Except Err (RState × ℕ) :=
  Runner.fit hs nm verbose (RState.mk0 nm) train_loader steps_per_epoch
    val_loader val_steps epochs start_epoch

/-- A whole `evaluate` call on a freshly constructed `Runner` with `nm`
metric functions. -/
def Runner.evaluateRun (hs : ℕ → Option ℕ) (nm : ℕ) (verbose : Bool)
    (loader : Loader) (steps : Option ℕ) :
    Trace × Except Err (RState × ℕ × (ℚ × List ℚ)) :=
  Runner.evaluate hs nm verbose loader steps (RState.mk0 nm) [] 0

/-- Number of broadcasts of hook `h` in a trace. -/
def countH (h : Hook) (tr : Trace) : ℕ :=
  tr.countP (fun p => decide (p.1 = h))

/-- Number of broadcasts of hook `h` made during epoch `e` (the epoch
index the callbacks observe in the context). -/
def countHEp (h : Hook) (e : ℕ) (tr : Trace) : ℕ :=
  tr.countP (fun p => decide (p.1 = h ∧ p.2.epoch = e))

/-- The epoch indices observed at the `on_epoch_begin` broadcasts, in
trace order. -/
def epochsSeen (tr : Trace) : List ℕ :=
  (tr.filter (fun p => decide (p.1 = Hook.on_epoch_begin))).map (fun p => p.2.epoch)

/-- The hook callbacks see no exception anywhere (well-behaved callbacks). -/
def NoHookExc (hs : ℕ → Option ℕ) : Prop := ∀ n, hs n = none

/-- Every batch of the list computes without raising. -/
def GoodBatches (bs : List Batch) : Prop :=
  ∀ b ∈ bs, ∃ l ms, b.res = StepRes.val l ms

/-- The scalar loss value a batch produces (zero for a raising batch;
only used on non-raising batches). -/
def lossOf (b : Batch) : ℚ :=
  match b.res with
  | .exc _ => 0
  | .val l _ => l

/-- The scalar value metric `j` produces on a batch. -/
def colVal (j : ℕ) (b : Batch) : ℚ :=
  match b.res with
  | .exc _ => 0
  | .val _ ms => ms.getD j 0


/-- A Python value flowing through the segmentation decoder: either
`None` or an opaque tensor (identified by a tag). -/
inductive PVal where
  | none
  | tensor (id : ℕ)
  deriving DecidableEq, Repr

/-- `UnetCenterBlock.forward` (unet.py lines 10-12): evaluates
`self.block(x)` and falls off the end of the function — a Python
function body with no `return` returns `None`, so the block's result is
discarded.  `block` is the wrapped `UnetDecoderBlock` computation,
treated as an opaque function. -/
def UnetCenterBlock.forward (block : PVal → PVal) (x : PVal) : PVal :=
  let _ := block x
  PVal.none

/-- The pluggable pieces of a `UnetDecoder` (unet.py lines 15-44):
`center` is `some` of the center block's wrapped computation when the
decoder was built with `center=True` and `none` otherwise
(`self.center = None`); the five decoder layers, the dropout and the
final 1×1 convolution are opaque. -/
structure UnetDecoderModel where
  center : Option (PVal → PVal)
  layer1 : PVal → PVal → PVal
  layer2 : PVal → PVal → PVal
  layer3 : PVal → PVal → PVal
  layer4 : PVal → PVal → PVal
  layer5 : PVal → PVal → PVal
  dropout : PVal → PVal
  final_conv : PVal → PVal

/-- `UnetDecoder.forward` (unet.py lines 56-70): splits the encoder
features into head and skips, routes the head through the center block
when one is present (`if self.center:` — a module object is truthy,
`None` is falsy), then chains the five decoder layers, dropout and the
final convolution.  Each `layer_i([a, b])` call is abstracted as a
two-argument opaque function; `skips[i]` is `x.getD (i+1) PVal.none`. -/
def UnetDecoder.forward (m : UnetDecoderModel) (x : List PVal) : PVal :=
  let encoder_head := x.getD 0 PVal.none
  let skips := x.drop 1
  let encoder_head :=
    match m.center with
    | some cb => UnetCenterBlock.forward cb encoder_head
    | none => encoder_head
  let a := m.layer1 encoder_head (skips.getD 0 PVal.none)
  let a := m.layer2 a (skips.getD 1 PVal.none)
  let a := m.layer3 a (skips.getD 2 PVal.none)
  let a := m.layer4 a (skips.getD 3 PVal.none)
  let a := m.layer5 a PVal.none
  m.final_conv (m.dropout a)

/-! Basic lemmas about the meter heap. -/

theorem RState.mget_mset_ne (st : RState) {i j : ℕ} (m : Meter) (h : i ≠ j) :
    (st.mset i m).mget j = st.mget j := by
  simp [RState.mget, RState.mset, List.getD_eq_getElem?_getD, List.getElem?_set_ne h]

theorem RState.mget_mset_self (st : RState) {i : ℕ} (m : Meter) (h : i < st.heap.length) :
    (st.mset i m).mget i = m := by
  simp [RState.mget, RState.mset, List.getD_eq_getElem?_getD, List.getElem?_set_self h]

theorem RState.mset_length (st : RState) (i : ℕ) (m : Meter) :
    (st.mset i m).heap.length = st.heap.length := by
  simp [RState.mset]

theorem RState.alloc_length (st : RState) (m : Meter) :
    (st.alloc m).1.heap.length = st.heap.length + 1 := by
  simp [RState.alloc]

theorem RState.mget_alloc_old (st : RState) (m : Meter) {j : ℕ} (h : j < st.heap.length) :
    (st.alloc m).1.mget j = st.mget j := by
  simp only [RState.alloc, RState.mget, List.getD_eq_getElem?_getD]
  rw [List.getElem?_append]
  simp [h]

theorem RState.mget_alloc_new (st : RState) (m : Meter) :
    (st.alloc m).1.mget st.heap.length = m := by
  simp [RState.alloc, RState.mget, List.getD_eq_getElem?_getD,
    List.getElem?_append_right le_rfl]

theorem RState.alloc_idx (st : RState) (m : Meter) : (st.alloc m).2 = st.heap.length := rfl

/-- The run-context fields that the batch loop never writes (everything
except the heap, the step index and the optimizer counters). -/
structure CtlEq (st st' : RState) : Prop where
  train_loss : st'.train_loss = st.train_loss
  train_metrics : st'.train_metrics = st.train_metrics
  val_loss : st'.val_loss = st.val_loss
  val_metrics : st'.val_metrics = st.val_metrics
  epoch : st'.epoch = st.epoch
  num_epochs : st'.num_epochs = st.num_epochs
  ep_size : st'.ep_size = st.ep_size
  is_train : st'.is_train = st.is_train
  model_train_mode : st'.model_train_mode = st.model_train_mode
  batch_size : st'.batch_size = st.batch_size

theorem CtlEq.refl (st : RState) : CtlEq st st := by
  constructor <;> rfl

theorem CtlEq.comp {s1 s2 s3 : RState} (h1 : CtlEq s1 s2) (h2 : CtlEq s2 s3) : CtlEq s1 s3 :=
  ⟨h2.train_loss.trans h1.train_loss, h2.train_metrics.trans h1.train_metrics,
   h2.val_loss.trans h1.val_loss, h2.val_metrics.trans h1.val_metrics,
   h2.epoch.trans h1.epoch, h2.num_epochs.trans h1.num_epochs,
   h2.ep_size.trans h1.ep_size, h2.is_train.trans h1.is_train,
   h2.model_train_mode.trans h1.model_train_mode, h2.batch_size.trans h1.batch_size⟩

theorem CtlEq.mset (st : RState) (i : ℕ) (m : Meter) : CtlEq st (st.mset i m) := by
  constructor <;> rfl

/-! Characterization of `cellsFold` (the metric reset and update loops). -/

theorem cellsFold_succ (nm : ℕ) (g : ℕ → Meter → Meter) (st : RState) :
    cellsFold (nm + 1) g st =
      (cellsFold nm g st).mset (nm + 1) (g nm ((cellsFold nm g st).mget (nm + 1))) := by
  simp [cellsFold, List.range_succ]

theorem cellsFold_length (nm : ℕ) (g : ℕ → Meter → Meter) (st : RState) :
    (cellsFold nm g st).heap.length = st.heap.length := by
  induction nm with
  | zero => rfl
  | succ n ih => rw [cellsFold_succ, RState.mset_length, ih]

theorem cellsFold_ctl (nm : ℕ) (g : ℕ → Meter → Meter) (st : RState) :
    CtlEq st (cellsFold nm g st) := by
  induction nm with
  | zero => exact CtlEq.refl st
  | succ n ih => rw [cellsFold_succ]; exact ih.comp (CtlEq.mset _ _ _)

theorem cellsFold_step (nm : ℕ) (g : ℕ → Meter → Meter) (st : RState) :
    (cellsFold nm g st).step = st.step := by
  induction nm with
  | zero => rfl
  | succ n ih => rw [cellsFold_succ]; exact ih

theorem cellsFold_zero_grad (nm : ℕ) (g : ℕ → Meter → Meter) (st : RState) :
    (cellsFold nm g st).zero_grad_calls = st.zero_grad_calls := by
  induction nm with
  | zero => rfl
  | succ n ih => rw [cellsFold_succ]; exact ih

theorem cellsFold_opt_step (nm : ℕ) (g : ℕ → Meter → Meter) (st : RState) :
    (cellsFold nm g st).opt_step_calls = st.opt_step_calls := by
  induction nm with
  | zero => rfl
  | succ n ih => rw [cellsFold_succ]; exact ih

theorem cellsFold_mget_out (nm : ℕ) (g : ℕ → Meter → Meter) (st : RState) {j : ℕ}
    (hj : j = 0 ∨ nm < j) : (cellsFold nm g st).mget j = st.mget j := by
  induction nm with
  | zero => rfl
  | succ n ih =>
    have hj' : j = 0 ∨ n < j := by
      rcases hj with h | h
      · exact Or.inl h
      · exact Or.inr (Nat.lt_of_succ_lt h)
    have hne : n + 1 ≠ j := by
      rcases hj with h | h
      · omega
      · omega
    rw [cellsFold_succ, RState.mget_mset_ne _ _ hne, ih hj']

theorem cellsFold_mget_in (nm : ℕ) (g : ℕ → Meter → Meter) (st : RState) {j : ℕ}
    (h1 : 1 ≤ j) (h2 : j ≤ nm) (hlen : j < st.heap.length) :
    (cellsFold nm g st).mget j = g (j - 1) (st.mget j) := by
  induction nm with
  | zero => omega
  | succ n ih =>
    rw [cellsFold_succ]
    rcases Nat.lt_or_ge j (n + 1) with hlt | hge
    · rw [RState.mget_mset_ne _ _ (by omega)]
      exact ih (by omega)
    · have hj : j = n + 1 := by omega
      subst hj
      rw [RState.mget_mset_self _ _ (by rw [cellsFold_length]; exact hlen),
        cellsFold_mget_out n g st (Or.inr (by omega))]
      simp

/-! Specification of `_make_step`. -/

/-- The optimizer interaction of the training branch of `_make_step`
(`zero_grad`, scaled backward, `step`, device barrier), observable
through the call counters; a no-op in evaluation mode. -/
def msBump (st : RState) : RState :=
  if st.is_train then
    { st with zero_grad_calls := st.zero_grad_calls + 1,
              opt_step_calls := st.opt_step_calls + 1 }
  else st

theorem msBump_heap (st : RState) : (msBump st).heap = st.heap := by
  unfold msBump; split <;> rfl

theorem msBump_mget (st : RState) (j : ℕ) : (msBump st).mget j = st.mget j := by
  simp [RState.mget, msBump_heap]

theorem msBump_step (st : RState) : (msBump st).step = st.step := by
  unfold msBump; split <;> rfl

theorem msBump_ctl (st : RState) : CtlEq st (msBump st) := by
  unfold msBump; split
  · constructor <;> rfl
  · exact CtlEq.refl st

theorem msBump_zero_grad (st : RState) :
    (msBump st).zero_grad_calls = st.zero_grad_calls + (if st.is_train then 1 else 0) := by
  unfold msBump; split <;> simp

theorem msBump_opt_step (st : RState) :
    (msBump st).opt_step_calls = st.opt_step_calls + (if st.is_train then 1 else 0) := by
  unfold msBump; split <;> simp

theorem make_step_exc {nm : ℕ} {b : Batch} {st : RState} {c : ℕ} (h : b.res = .exc c) :
    Runner._make_step nm b st = .error (.stepExc c) := by
  simp [Runner._make_step, h]

theorem make_step_eq {nm : ℕ} {b : Batch} {st : RState} {l : ℚ} {ms : List ℚ}
    (h : b.res = .val l ms) :
    Runner._make_step nm b st =
      .ok (metricFold nm (fun j => ms.getD j 0)
        ((msBump st).mset 0 (((msBump st).mget 0).update l))) := by
  simp [Runner._make_step, h, msBump, metricFold]

theorem make_step_ok {nm : ℕ} {b : Batch} {st : RState} {l : ℚ} {ms : List ℚ}
    (h : b.res = .val l ms) :
    ∃ st', Runner._make_step nm b st = .ok st' ∧
      CtlEq st st' ∧
      st'.step = st.step ∧
      st'.heap.length = st.heap.length ∧
      st'.zero_grad_calls = st.zero_grad_calls + (if st.is_train then 1 else 0) ∧
      st'.opt_step_calls = st.opt_step_calls + (if st.is_train then 1 else 0) ∧
      (0 < st.heap.length → st'.mget 0 = (st.mget 0).update (lossOf b)) ∧
      (∀ j, 1 ≤ j → j ≤ nm → j < st.heap.length →
        st'.mget j = (st.mget j).update (colVal (j - 1) b)) ∧
      (∀ j, nm < j → st'.mget j = st.mget j) := by
  refine ⟨_, make_step_eq h, ?_, ?_, ?_, ?_, ?_, ?_, ?_, ?_⟩
  · exact (msBump_ctl st).comp ((CtlEq.mset _ _ _).comp (cellsFold_ctl _ _ _))
  · rw [metricFold, cellsFold_step]; exact msBump_step st
  · rw [metricFold, cellsFold_length, RState.mset_length]
    simp [msBump_heap]
  · rw [metricFold, cellsFold_zero_grad]
    exact msBump_zero_grad st
  · rw [metricFold, cellsFold_opt_step]
    exact msBump_opt_step st
  · intro hl
    rw [metricFold, cellsFold_mget_out _ _ _ (Or.inl rfl),
      RState.mget_mset_self _ _ (by simp [msBump_heap]; exact hl), msBump_mget]
    simp [lossOf, h]
  · intro j h1 h2 h3
    rw [metricFold, cellsFold_mget_in _ _ _ h1 h2
        (by rw [RState.mset_length]; simp [msBump_heap]; exact h3),
      RState.mget_mset_ne _ _ (by omega), msBump_mget]
    simp [colVal, h]
  · intro j hj
    rw [metricFold, cellsFold_mget_out _ _ _ (Or.inr hj),
      RState.mget_mset_ne _ _ (by omega), msBump_mget]

/-! Heap-frame machinery for snapshot independence. -/

/-- Heap-frame relation: from `st` to `st'` the heap only grows, and any
already-existing cell above the live-meter range `0 .. nm` keeps its
contents (only live meters are ever mutated; `copy` only allocates). -/
def SnapFrame (nm : ℕ) (st st' : RState) : Prop :=
  st.heap.length ≤ st'.heap.length ∧
  ∀ j, nm < j → j < st.heap.length → st'.mget j = st.mget j

theorem SnapFrame.here (nm : ℕ) (st : RState) : SnapFrame nm st st :=
  ⟨le_rfl, fun _ _ _ => rfl⟩

theorem SnapFrame.chain {nm : ℕ} {a b c : RState}
    (h1 : SnapFrame nm a b) (h2 : SnapFrame nm b c) : SnapFrame nm a c :=
  ⟨h1.1.trans h2.1, fun j hj hl => (h2.2 j hj (hl.trans_le h1.1)).trans (h1.2 j hj hl)⟩

theorem SnapFrame.of_heap_eq {nm : ℕ} {st st' : RState} (h : st'.heap = st.heap) :
    SnapFrame nm st st' :=
  ⟨by rw [h], fun j _ _ => by simp [RState.mget, h]⟩

theorem SnapFrame.mset_live (nm : ℕ) (st : RState) {i : ℕ} (m : Meter) (hi : i ≤ nm) :
    SnapFrame nm st (st.mset i m) :=
  ⟨by rw [RState.mset_length], fun j hj _ => RState.mget_mset_ne st m (by omega)⟩

theorem SnapFrame.alloc (nm : ℕ) (st : RState) (m : Meter) :
    SnapFrame nm st (st.alloc m).1 :=
  ⟨by rw [RState.alloc_length]; omega, fun j _ hl => RState.mget_alloc_old st m hl⟩

theorem SnapFrame.cellsFold (nm : ℕ) (g : ℕ → Meter → Meter) (st : RState) :
    SnapFrame nm st (cellsFold nm g st) :=
  ⟨by rw [cellsFold_length], fun j hj _ => cellsFold_mget_out nm g st (Or.inr hj)⟩

theorem SnapFrame.make_step {nm : ℕ} {b : Batch} {st st' : RState}
    (h : Runner._make_step nm b st = .ok st') : SnapFrame nm st st' := by
  cases hb : b.res with
  | exc c => rw [make_step_exc hb] at h; cases h
  | val l ms =>
    obtain ⟨s2, he, _, _, _, _, _, _, _, hhigh⟩ := @make_step_ok nm b st l ms hb
    rw [he] at h
    cases h
    refine ⟨?_, fun j hj _ => hhigh j hj⟩
    rw [make_step_eq hb] at he
    cases he
    rw [metricFold, cellsFold_length, RState.mset_length]
    simp [msBump_heap]

/-- A cell index that may legitimately be stored in a snapshot field:
above the live-meter range and inside the current heap. -/
def SnapIdx (nm : ℕ) (st : RState) (j : ℕ) : Prop := nm < j ∧ j < st.heap.length

/-- Reachable-state invariant: the heap contains at least the live
meters, and every snapshot reference points above the live-meter range
(snapshots are fresh `copy` allocations, never aliases of live meters). -/
def SnapInv (nm : ℕ) (st : RState) : Prop :=
  nm + 1 ≤ st.heap.length ∧
  (∀ j, st.train_loss = some j → SnapIdx nm st j) ∧
  (∀ j ∈ st.train_metrics, SnapIdx nm st j) ∧
  (∀ j, st.val_loss = some j → SnapIdx nm st j) ∧
  (∀ j ∈ st.val_metrics, SnapIdx nm st j)

theorem SnapInv.mono {nm : ℕ} {st st' : RState} (h : SnapInv nm st) (hlen : st.heap.length ≤ st'.heap.length)
    (h1 : st'.train_loss = st.train_loss) (h2 : st'.train_metrics = st.train_metrics)
    (h3 : st'.val_loss = st.val_loss) (h4 : st'.val_metrics = st.val_metrics) : SnapInv nm st' := by
  obtain ⟨hc, t1, t2, t3, t4⟩ := h
  refine ⟨hc.trans hlen, ?_, ?_, ?_, ?_⟩
  · intro j hj; rw [h1] at hj; exact ⟨(t1 j hj).1, (t1 j hj).2.trans_le hlen⟩
  · intro j hj; rw [h2] at hj; exact ⟨(t2 j hj).1, (t2 j hj).2.trans_le hlen⟩
  · intro j hj; rw [h3] at hj; exact ⟨(t3 j hj).1, (t3 j hj).2.trans_le hlen⟩
  · intro j hj; rw [h4] at hj; exact ⟨(t4 j hj).1, (t4 j hj).2.trans_le hlen⟩

theorem SnapInv.of_ctl {nm : ℕ} {st st' : RState} (h : SnapInv nm st) (hc : CtlEq st st')
    (hlen : st.heap.length ≤ st'.heap.length) : SnapInv nm st' :=
  h.mono hlen hc.train_loss hc.train_metrics hc.val_loss hc.val_metrics

/-- Trace segment relation: running from `st` to `st'` appended the
entries `Δ`; the heap frame holds from `st` to every recorded context,
between recorded contexts in order, and on to `st'`. -/
def Seg (nm : ℕ) (st st' : RState) (Δ : Trace) : Prop :=
  SnapFrame nm st st' ∧
  (∀ e ∈ Δ, SnapFrame nm st e.2 ∧ SnapFrame nm e.2 st') ∧
  Δ.Pairwise (fun a b => SnapFrame nm a.2 b.2)

theorem Seg.nil {nm : ℕ} {st st' : RState} (h : SnapFrame nm st st') : Seg nm st st' [] :=
  ⟨h, by simp, by simp⟩

theorem Seg.single {nm : ℕ} {st st' : RState} (h : Hook) (hf : SnapFrame nm st st') :
    Seg nm st st' [(h, st')] := by
  refine ⟨hf, ?_, by simp⟩
  intro e he
  rw [List.mem_singleton] at he
  subst he
  exact ⟨hf, SnapFrame.here nm st'⟩

theorem Seg.glue {nm : ℕ} {s1 s2 s3 : RState} {Δ1 Δ2 : Trace}
    (h1 : Seg nm s1 s2 Δ1) (h2 : Seg nm s2 s3 Δ2) : Seg nm s1 s3 (Δ1 ++ Δ2) := by
  refine ⟨h1.1.chain h2.1, ?_, ?_⟩
  · intro e he
    rcases List.mem_append.1 he with he | he
    · exact ⟨(h1.2.1 e he).1, (h1.2.1 e he).2.chain h2.1⟩
    · exact ⟨h1.1.chain (h2.2.1 e he).1, (h2.2.1 e he).2⟩
  · rw [List.pairwise_append]
    exact ⟨h1.2.2, h2.2.2, fun a ha b hb => (h1.2.1 a ha).2.chain (h2.2.1 b hb).1⟩

theorem Seg.cons {nm : ℕ} {s1 s2 s3 : RState} {Δ : Trace} (h : Hook)
    (hf : SnapFrame nm s1 s2) (hrest : Seg nm s2 s3 Δ) :
    Seg nm s1 s3 ((h, s2) :: Δ) := by
  have := Seg.glue (Seg.single h hf) hrest
  simpa using this

/-! Counting helpers. -/

theorem countH_nil (h : Hook) : countH h [] = 0 := rfl

theorem countH_append (h : Hook) (t1 t2 : Trace) :
    countH h (t1 ++ t2) = countH h t1 + countH h t2 := by
  simp [countH, List.countP_append]

theorem countH_cons (h : Hook) (e : Hook × RState) (tr : Trace) :
    countH h (e :: tr) = countH h tr + (if e.1 = h then 1 else 0) := by
  by_cases he : e.1 = h <;> simp [countH, List.countP_cons, he]

theorem CtlEq.step_set (st : RState) (i : ℕ) : CtlEq st { st with step := i } := by
  constructor <;> rfl

/-! The batch loop: everything a successful pass guarantees. -/

/-- Properties of a successful batch-loop pass from `st` (appending `Δ`,
ending in `st'`): hook counts, what every recorded context shares with
`st`, which fields survive, the optimizer counters, and the cumulative
meter contents. -/
structure BOut (nm : ℕ) (bs : List Batch) (st : RState) (k : ℕ)
    (Δ : Trace) (st' : RState) (k' : ℕ) : Prop where
  good : GoodBatches bs
  k_eq : k' = k + 2 * bs.length
  dlen : Δ.length = 2 * bs.length
  cnt_bb : countH .on_batch_begin Δ = bs.length
  cnt_be : countH .on_batch_end Δ = bs.length
  cnt_other : ∀ h, h ≠ Hook.on_batch_begin → h ≠ Hook.on_batch_end → countH h Δ = 0
  entries : ∀ e ∈ Δ, CtlEq st e.2 ∧
    (st.is_train = false → e.2.zero_grad_calls = st.zero_grad_calls ∧
      e.2.opt_step_calls = st.opt_step_calls)
  ctl : CtlEq st st'
  heap_len : st'.heap.length = st.heap.length
  zg : st'.zero_grad_calls = st.zero_grad_calls + (if st.is_train then bs.length else 0)
  os : st'.opt_step_calls = st.opt_step_calls + (if st.is_train then bs.length else 0)
  loss : 0 < st.heap.length →
    st'.mget 0 = bs.foldl (fun m b => m.update (lossOf b)) (st.mget 0)
  mets : ∀ j, 1 ≤ j → j ≤ nm → j < st.heap.length →
    st'.mget j = bs.foldl (fun m b => m.update (colVal (j - 1) b)) (st.mget j)

theorem runBatches_ok {hs : ℕ → Option ℕ} {nm : ℕ} :
    ∀ (bs : List Batch) (i : ℕ) (st : RState) (tr : Trace) (k : ℕ)
      {tr' : Trace} {st' : RState} {k' : ℕ},
      runBatches hs nm bs i st tr k = (tr', .ok (st', k')) →
      ∃ Δ, tr' = tr ++ Δ ∧ BOut nm bs st k Δ st' k' := by
  intro bs
  induction bs with
  | nil =>
    intro i st tr k tr' st' k' hrun
    simp only [runBatches] at hrun
    obtain ⟨rfl, h2⟩ := Prod.mk.injEq .. ▸ hrun
    obtain ⟨rfl, rfl⟩ : st = st' ∧ k = k' := by
      cases h2; exact ⟨rfl, rfl⟩
    refine ⟨[], by simp, ?_⟩
    refine ⟨fun b hb => absurd hb (List.not_mem_nil b), by simp, by simp, rfl, rfl, fun h _ _ => rfl,
      fun e he => absurd he (List.not_mem_nil e), CtlEq.refl st, rfl, by simp, by simp,
      fun _ => rfl, fun j _ _ _ => rfl⟩
  | cons b rest ih =>
    intro i st tr k tr' st' k' hrun
    simp only [runBatches] at hrun
    cases hk : hs k with
    | some c => rw [callHook, hk] at hrun; cases hrun
    | none =>
      rw [callHook, hk] at hrun
      simp only [] at hrun
      cases hb : b.res with
      | exc c =>
        rw [@make_step_exc nm b { st with step := i } c hb] at hrun
        cases hrun
      | val l ms =>
        obtain ⟨s2, he2, hctl2, hstep2, hlen2, hzg2, hos2, hm0, hmj, hhi⟩ :=
          @make_step_ok nm b { st with step := i } l ms hb
        rw [he2] at hrun
        simp only [] at hrun
        cases hk2 : hs (k + 1) with
        | some c => rw [callHook, hk2] at hrun; cases hrun
        | none =>
          rw [callHook, hk2] at hrun
          simp only [] at hrun
          obtain ⟨Δr, htr, hB⟩ := ih (i + 1) s2 (tr ++ [(.on_batch_begin, { st with step := i })] ++ [(.on_batch_end, s2)]) (k + 1 + 1) hrun
          refine ⟨(.on_batch_begin, { st with step := i }) :: (.on_batch_end, s2) :: Δr, ?_, ?_⟩
          · rw [htr]; simp
          · have hctl_i : CtlEq st { st with step := i } := CtlEq.step_set st i
            have hctl_s2 : CtlEq st s2 := hctl_i.comp hctl2
            have hit : s2.is_train = st.is_train := hctl_s2.is_train
            have hlen_s2 : s2.heap.length = st.heap.length := by
              rw [hlen2]
            refine ⟨?_, ?_, ?_, ?_, ?_, ?_, ?_, ?_, ?_, ?_, ?_, ?_, ?_⟩
            · intro x hx
              rcases List.mem_cons.1 hx with rfl | hx
              · exact ⟨l, ms, hb⟩
              · exact hB.good x hx
            · rw [hB.k_eq]; simp; ring
            · simp [hB.dlen]; ring
            · rw [countH_cons, countH_cons, hB.cnt_bb]; simp
            · rw [countH_cons, countH_cons, hB.cnt_be]; simp
            · intro h h1 h2
              rw [countH_cons, countH_cons, hB.cnt_other h h1 h2]
              simp [Ne.symm h1, Ne.symm h2]
            · intro e he
              rcases List.mem_cons.1 he with rfl | he
              · exact ⟨hctl_i, fun _ => ⟨rfl, rfl⟩⟩
              rcases List.mem_cons.1 he with rfl | he
              · refine ⟨hctl_s2, fun hf => ?_⟩
                constructor
                · rw [hzg2]; simp [hf]
                · rw [hos2]; simp [hf]
              · obtain ⟨hc, hcnt⟩ := hB.entries e he
                refine ⟨hctl_s2.comp hc, fun hf => ?_⟩
                obtain ⟨hz, ho⟩ := hcnt (by rw [hit, hf])
                constructor
                · rw [hz, hzg2]; simp [hf]
                · rw [ho, hos2]; simp [hf]
            · exact hctl_s2.comp hB.ctl
            · rw [hB.heap_len, hlen_s2]
            · rw [hB.zg, hzg2, hit]
              cases hti : st.is_train <;> simp <;> ring
            · rw [hB.os, hos2, hit]
              cases hti : st.is_train <;> simp <;> ring
            · intro hl
              rw [hB.loss (by rw [hlen_s2]; exact hl), hm0 hl]
              rfl
            · intro j h1 h2 h3
              rw [hB.mets j h1 h2 (by rw [hlen_s2]; exact h3), hmj j h1 h2 h3]
              rfl

/-! Support lemmas: `stepsOrLen`, cumulative meters, tagged counts. -/

theorem stepsOrLen_ok {steps : Option ℕ} {loader : Loader} {n : ℕ}
    (h : stepsOrLen steps loader = .ok n) :
    n = (match steps with
      | some s => if s = 0 then loader.batches.length else s
      | none => loader.batches.length) := by
  cases steps with
  | none =>
    rw [stepsOrLen, pyLen] at h
    cases hl : loader.hasLen <;> rw [hl] at h <;> simp_all
  | some s =>
    rw [stepsOrLen] at h
    by_cases hs0 : s = 0
    · rw [if_pos hs0, pyLen] at h
      cases hl : loader.hasLen <;> rw [hl] at h <;> simp_all
    · rw [if_neg hs0] at h
      cases h; simp [hs0]

theorem stepsOrLen_err {steps : Option ℕ} {loader : Loader} {e : Err}
    (h : stepsOrLen steps loader = .error e) : e = .lenTypeError ∧ loader.hasLen = false := by
  cases steps with
  | none =>
    rw [stepsOrLen, pyLen] at h
    cases hl : loader.hasLen <;> rw [hl] at h <;> simp_all
  | some s =>
    rw [stepsOrLen] at h
    by_cases hs0 : s = 0
    · rw [if_pos hs0, pyLen] at h
      cases hl : loader.hasLen <;> rw [hl] at h <;> simp_all
    · rw [if_neg hs0] at h
      cases h

theorem stepsOrLen_none_noLen {loader : Loader} (h : loader.hasLen = false) :
    stepsOrLen none loader = .error .lenTypeError := by
  rw [stepsOrLen, pyLen, h]; rfl

theorem foldl_update_count (vs : List ℚ) : ∀ m : Meter,
    (vs.foldl Meter.update m).count = m.count + vs.length := by
  induction vs with
  | nil => intro m; rfl
  | cons v rest ih =>
    intro m
    rw [List.foldl_cons, ih]
    simp [Meter.update]; ring

theorem foldl_update_sum (vs : List ℚ) : ∀ m : Meter,
    (vs.foldl Meter.update m).sum = m.sum + vs.sum := by
  induction vs with
  | nil => intro m; simp
  | cons v rest ih =>
    intro m
    rw [List.foldl_cons, ih]
    simp [Meter.update]; ring

theorem meterOf_count (vs : List ℚ) : (meterOf vs).count = vs.length := by
  rw [meterOf, foldl_update_count]; simp [Meter.init]

theorem meterOf_sum (vs : List ℚ) : (meterOf vs).sum = vs.sum := by
  rw [meterOf, foldl_update_sum]; simp [Meter.init]

/-- The cumulative average of a nonempty stream is its arithmetic mean. -/
theorem meterOf_avg {vs : List ℚ} (h : vs ≠ []) :
    (meterOf vs).avg = vs.sum / vs.length := by
  rw [Meter.avg, meterOf_count, meterOf_sum, if_neg (by simpa using h)]

theorem countHEp_nil (h : Hook) (e : ℕ) : countHEp h e [] = 0 := rfl

theorem countHEp_append (h : Hook) (e : ℕ) (t1 t2 : Trace) :
    countHEp h e (t1 ++ t2) = countHEp h e t1 + countHEp h e t2 := by
  simp [countHEp, List.countP_append]

theorem countHEp_cons (h : Hook) (e : ℕ) (x : Hook × RState) (tr : Trace) :
    countHEp h e (x :: tr) =
      countHEp h e tr + (if x.1 = h ∧ x.2.epoch = e then 1 else 0) := by
  by_cases hx : x.1 = h ∧ x.2.epoch = e <;> simp [countHEp, List.countP_cons, hx]

theorem countHEp_eq_countH {h : Hook} {e : ℕ} {Δ : Trace}
    (hall : ∀ x ∈ Δ, x.2.epoch = e) : countHEp h e Δ = countH h Δ := by
  induction Δ with
  | nil => rfl
  | cons x rest ih =>
    rw [countHEp_cons, countH_cons, ih (fun y hy => hall y (List.mem_cons_of_mem x hy))]
    have hx := hall x (List.mem_cons_self x rest)
    by_cases hh : x.1 = h <;> simp [hh, hx]

theorem countHEp_eq_zero {h : Hook} {e : ℕ} {Δ : Trace}
    (hall : ∀ x ∈ Δ, x.2.epoch ≠ e) : countHEp h e Δ = 0 := by
  induction Δ with
  | nil => rfl
  | cons x rest ih =>
    rw [countHEp_cons, ih (fun y hy => hall y (List.mem_cons_of_mem x hy))]
    have hx := hall x (List.mem_cons_self x rest)
    simp [hx]

theorem countHEp_le_countH (h : Hook) (e : ℕ) (Δ : Trace) :
    countHEp h e Δ ≤ countH h Δ := by
  induction Δ with
  | nil => exact le_rfl
  | cons x rest ih =>
    rw [countHEp_cons, countH_cons]
    by_cases hh : x.1 = h
    · by_cases he : x.2.epoch = e <;> simp [hh, he] <;> omega
    · simp [hh]; omega

theorem epochsSeen_nil : epochsSeen [] = [] := rfl

theorem epochsSeen_append (t1 t2 : Trace) :
    epochsSeen (t1 ++ t2) = epochsSeen t1 ++ epochsSeen t2 := by
  simp [epochsSeen, List.filter_append]

theorem epochsSeen_of_no_eb {Δ : Trace} (h : countH .on_epoch_begin Δ = 0) :
    epochsSeen Δ = [] := by
  rw [epochsSeen, List.filter_eq_nil.2, List.map_nil]
  intro x hx
  have := List.countP_eq_zero.1 h x hx
  simpa using this

theorem epochsSeen_single (h : Hook) (st : RState) :
    epochsSeen [(h, st)] = if h = .on_epoch_begin then [st.epoch] else [] := by
  by_cases hh : h = .on_epoch_begin <;> simp [epochsSeen, List.filter, hh]

/-! Facts about snapshot copying. -/

theorem copyMeters_state : ∀ (idxs : List ℕ) (st : RState),
    ∃ hp, (copyMeters st idxs).1 = { st with heap := hp } := by
  intro idxs
  induction idxs with
  | nil => intro st; exact ⟨st.heap, rfl⟩
  | cons i rest ih =>
    intro st
    obtain ⟨hp, hh⟩ := ih (copyMeter st i).1
    exact ⟨hp, by rw [copyMeters, hh]; rfl⟩

theorem copyMeters_length : ∀ (idxs : List ℕ) (st : RState),
    (copyMeters st idxs).1.heap.length = st.heap.length + idxs.length := by
  intro idxs
  induction idxs with
  | nil => intro st; rfl
  | cons i rest ih =>
    intro st
    rw [copyMeters]
    show (copyMeters (copyMeter st i).1 rest).1.heap.length = _
    rw [ih, copyMeter, RState.alloc_length]
    simp; ring

theorem copyMeters_frame (nm : ℕ) : ∀ (idxs : List ℕ) (st : RState),
    SnapFrame nm st (copyMeters st idxs).1 := by
  intro idxs
  induction idxs with
  | nil => intro st; exact SnapFrame.here nm st
  | cons i rest ih =>
    intro st
    rw [copyMeters]
    exact (SnapFrame.alloc nm st _).chain (ih (copyMeter st i).1)

theorem copyMeters_fresh (nm : ℕ) : ∀ (idxs : List ℕ) (st : RState),
    ∀ j ∈ (copyMeters st idxs).2,
      st.heap.length ≤ j ∧ j < (copyMeters st idxs).1.heap.length := by
  intro idxs
  induction idxs with
  | nil => intro st j hj; cases hj
  | cons i rest ih =>
    intro st j hj
    rw [copyMeters] at hj ⊢
    rcases List.mem_cons.1 hj with rfl | hj
    · show st.heap.length ≤ (copyMeter st i).2 ∧ _
      constructor
      · rw [copyMeter, RState.alloc_idx]
      · show (copyMeter st i).2 < (copyMeters (copyMeter st i).1 rest).1.heap.length
        rw [copyMeters_length, copyMeter, RState.alloc_idx, RState.alloc_length]
        omega
    · obtain ⟨h1, h2⟩ := ih (copyMeter st i).1 j hj
      refine ⟨le_trans ?_ h1, h2⟩
      rw [copyMeter, RState.alloc_length]
      omega

/-! The inner epoch loop: everything a successful pass guarantees. -/

theorem resetSt_ctl (nm : ℕ) (st : RState) :
    CtlEq st (metricReset nm (st.mset 0 ((st.mget 0).reset))) :=
  (CtlEq.mset st 0 _).comp (cellsFold_ctl nm _ _)

theorem resetSt_len (nm : ℕ) (st : RState) :
    (metricReset nm (st.mset 0 ((st.mget 0).reset))).heap.length = st.heap.length := by
  rw [metricReset, cellsFold_length, RState.mset_length]

theorem resetSt_step (nm : ℕ) (st : RState) :
    (metricReset nm (st.mset 0 ((st.mget 0).reset))).step = st.step := by
  rw [metricReset, cellsFold_step]; rfl

theorem resetSt_zg (nm : ℕ) (st : RState) :
    (metricReset nm (st.mset 0 ((st.mget 0).reset))).zero_grad_calls = st.zero_grad_calls := by
  rw [metricReset, cellsFold_zero_grad]; rfl

theorem resetSt_os (nm : ℕ) (st : RState) :
    (metricReset nm (st.mset 0 ((st.mget 0).reset))).opt_step_calls = st.opt_step_calls := by
  rw [metricReset, cellsFold_opt_step]; rfl

theorem resetSt_mget0 (nm : ℕ) (st : RState) (h : 0 < st.heap.length) :
    (metricReset nm (st.mset 0 ((st.mget 0).reset))).mget 0 = Meter.init := by
  rw [metricReset, cellsFold_mget_out _ _ _ (Or.inl rfl), RState.mget_mset_self st _ h,
    Meter.reset]

theorem resetSt_mgetj (nm : ℕ) (st : RState) {j : ℕ} (h1 : 1 ≤ j) (h2 : j ≤ nm)
    (h3 : j < st.heap.length) :
    (metricReset nm (st.mset 0 ((st.mget 0).reset))).mget j = Meter.init := by
  rw [metricReset, cellsFold_mget_in _ _ _ h1 h2 (by rw [RState.mset_length]; exact h3),
    Meter.reset]

/-- Properties of a successful inner-epoch pass from `st` (appending `Δ`,
ending in `st'`). -/
structure EOut (nm : ℕ) (loader : Loader) (steps : Option ℕ) (st : RState) (k : ℕ)
    (Δ : Trace) (st' : RState) (k' : ℕ) : Prop where
  n_ok : stepsOrLen steps loader = .ok st'.ep_size
  good : GoodBatches loader.batches
  k_eq : k' = k + 2 * loader.batches.length
  dlen : Δ.length = 2 * loader.batches.length
  cnt_bb : countH .on_batch_begin Δ = loader.batches.length
  cnt_be : countH .on_batch_end Δ = loader.batches.length
  cnt_other : ∀ h, h ≠ Hook.on_batch_begin → h ≠ Hook.on_batch_end → countH h Δ = 0
  entries : ∀ e ∈ Δ, e.2.epoch = st.epoch ∧ e.2.is_train = st.is_train ∧
    e.2.model_train_mode = st.model_train_mode ∧ e.2.ep_size = st'.ep_size ∧
    (st.is_train = false → e.2.zero_grad_calls = st.zero_grad_calls ∧
      e.2.opt_step_calls = st.opt_step_calls) ∧
    e.2.train_loss = st.train_loss ∧ e.2.train_metrics = st.train_metrics ∧
    e.2.val_loss = st.val_loss ∧ e.2.val_metrics = st.val_metrics
  epoch : st'.epoch = st.epoch
  is_train : st'.is_train = st.is_train
  model_mode : st'.model_train_mode = st.model_train_mode
  num_epochs : st'.num_epochs = st.num_epochs
  batch_size : st'.batch_size = st.batch_size
  snaps : st'.train_loss = st.train_loss ∧ st'.train_metrics = st.train_metrics ∧
    st'.val_loss = st.val_loss ∧ st'.val_metrics = st.val_metrics
  heap_len : st'.heap.length = st.heap.length
  zg : st'.zero_grad_calls = st.zero_grad_calls +
    (if st.is_train then loader.batches.length else 0)
  os : st'.opt_step_calls = st.opt_step_calls +
    (if st.is_train then loader.batches.length else 0)
  loss : 0 < st.heap.length → st'.mget 0 = meterOf (loader.batches.map lossOf)
  mets : ∀ j, 1 ≤ j → j ≤ nm → j < st.heap.length →
    st'.mget j = meterOf (loader.batches.map (colVal (j - 1)))

theorem run_one_epoch_ok {hs : ℕ → Option ℕ} {nm : ℕ} {verbose : Bool} {loader : Loader}
    {steps : Option ℕ} {st : RState} {tr : Trace} {k : ℕ} {tr' : Trace} {st' : RState} {k' : ℕ}
    (h : Runner._run_one_epoch hs nm verbose loader steps st tr k = (tr', .ok (st', k'))) :
    verbose = false ∧ ∃ Δ, tr' = tr ++ Δ ∧ EOut nm loader steps st k Δ st' k' := by
  simp only [Runner._run_one_epoch] at h
  cases hso : stepsOrLen steps loader with
  | error e => rw [hso] at h; cases h
  | ok n =>
    rw [hso] at h
    cases hv : verbose
    case true => rw [hv] at h; simp only [if_true] at h; cases h
    case false =>
      rw [hv] at h
      simp only [if_false, Bool.false_eq_true] at h
      refine ⟨rfl, ?_⟩
      obtain ⟨Δ, htr, B⟩ := runBatches_ok loader.batches 0 _ tr k h
      have hrc : CtlEq st (metricReset nm (st.mset 0 ((st.mget 0).reset))) := resetSt_ctl nm st
      have hnctl : CtlEq { metricReset nm (st.mset 0 ((st.mget 0).reset)) with ep_size := n } st' := B.ctl
      have heps : st'.ep_size = n := hnctl.ep_size
      refine ⟨Δ, htr, ?_⟩
      refine ⟨?_, B.good, ?_, B.dlen, B.cnt_bb, B.cnt_be, B.cnt_other, ?_, ?_, ?_, ?_, ?_, ?_, ?_, ?_, ?_, ?_, ?_, ?_⟩
      · rw [heps]; exact hso
      · exact B.k_eq
      · intro e he
        obtain ⟨hc, hcnt⟩ := B.entries e he
        refine ⟨?_, ?_, ?_, ?_, ?_, ?_, ?_, ?_, ?_⟩
        · rw [hc.epoch]; exact hrc.epoch
        · rw [hc.is_train]; exact hrc.is_train
        · rw [hc.model_train_mode]; exact hrc.model_train_mode
        · rw [hc.ep_size, heps]
        · intro hf
          obtain ⟨hz, ho⟩ := hcnt (by show _ = false; rw [show ({ metricReset nm (st.mset 0 ((st.mget 0).reset)) with ep_size := n } : RState).is_train = st.is_train from hrc.is_train, hf])
          rw [hz, ho]
          exact ⟨resetSt_zg nm st, resetSt_os nm st⟩
        · rw [hc.train_loss]; exact hrc.train_loss
        · rw [hc.train_metrics]; exact hrc.train_metrics
        · rw [hc.val_loss]; exact hrc.val_loss
        · rw [hc.val_metrics]; exact hrc.val_metrics
      · rw [hnctl.epoch]; exact hrc.epoch
      · rw [hnctl.is_train]; exact hrc.is_train
      · rw [hnctl.model_train_mode]; exact hrc.model_train_mode
      · rw [hnctl.num_epochs]; exact hrc.num_epochs
      · rw [hnctl.batch_size]; exact hrc.batch_size
      · exact ⟨hnctl.train_loss.trans hrc.train_loss, hnctl.train_metrics.trans hrc.train_metrics,
          hnctl.val_loss.trans hrc.val_loss, hnctl.val_metrics.trans hrc.val_metrics⟩
      · rw [B.heap_len]
        show (metricReset nm (st.mset 0 ((st.mget 0).reset))).heap.length = _
        exact resetSt_len nm st
      · rw [B.zg, resetSt_zg nm st,
          show ({ metricReset nm (st.mset 0 ((st.mget 0).reset)) with ep_size := n } : RState).is_train = st.is_train from hrc.is_train]
      · rw [B.os, resetSt_os nm st,
          show ({ metricReset nm (st.mset 0 ((st.mget 0).reset)) with ep_size := n } : RState).is_train = st.is_train from hrc.is_train]
      · intro hl
        rw [B.loss (by show 0 < (metricReset nm (st.mset 0 ((st.mget 0).reset))).heap.length; rw [resetSt_len]; exact hl)]
        show loader.batches.foldl _ ((metricReset nm (st.mset 0 ((st.mget 0).reset))).mget 0) = _
        rw [resetSt_mget0 nm st hl, meterOf, List.foldl_map]
      · intro j h1 h2 h3
        rw [B.mets j h1 h2 (by show j < (metricReset nm (st.mset 0 ((st.mget 0).reset))).heap.length; rw [resetSt_len]; exact h3)]
        show loader.batches.foldl _ ((metricReset nm (st.mset 0 ((st.mget 0).reset))).mget j) = _
        rw [resetSt_mgetj nm st h1 h2 h3, meterOf, List.foldl_map]

theorem evaluate_ok {hs : ℕ → Option ℕ} {nm : ℕ} {verbose : Bool} {loader : Loader}
    {steps : Option ℕ} {st : RState} {tr : Trace} {k : ℕ} {tr' : Trace} {st' : RState}
    {k' : ℕ} {rv : ℚ × List ℚ}
    (h : Runner.evaluate hs nm verbose loader steps st tr k = (tr', .ok (st', k', rv))) :
    verbose = false ∧ ∃ Δ, tr' = tr ++ Δ ∧
      EOut nm loader steps { st with is_train := false, model_train_mode := false } k Δ st' k' ∧
      rv = ((st'.mget 0).avg, (List.range nm).map (fun j => (st'.mget (j + 1)).avg)) := by
  simp only [Runner.evaluate] at h
  cases hre : Runner._run_one_epoch hs nm verbose loader steps
      { st with is_train := false, model_train_mode := false } tr k with
  | mk tr2 out =>
    rw [hre] at h
    cases out with
    | error e => cases h
    | ok p =>
      obtain ⟨s2, k2⟩ := p
      cases h
      obtain ⟨hv, Δ, htr, E⟩ := run_one_epoch_ok hre
      exact ⟨hv, Δ, htr, E, rfl⟩

/-! Progress: with well-behaved callbacks and non-raising batches, the
loops complete. -/

theorem stepsOrLen_err_steps {steps : Option ℕ} {loader : Loader} {e : Err}
    (h : stepsOrLen steps loader = .error e) : steps = none ∨ steps = some 0 := by
  cases steps with
  | none => exact Or.inl rfl
  | some s =>
    rw [stepsOrLen] at h
    by_cases hs0 : s = 0
    · exact Or.inr (by rw [hs0])
    · rw [if_neg hs0] at h; cases h

theorem runBatches_progress {hs : ℕ → Option ℕ} {nm : ℕ} (hhs : NoHookExc hs) :
    ∀ (bs : List Batch), GoodBatches bs → ∀ (i : ℕ) (st : RState) (tr : Trace) (k : ℕ),
      ∃ tr' st' k', runBatches hs nm bs i st tr k = (tr', .ok (st', k')) := by
  have hhs' : ∀ n, hs n = none := hhs
  intro bs
  induction bs with
  | nil => intro _ i st tr k; exact ⟨tr, st, k, rfl⟩
  | cons b rest ih =>
    intro hg i st tr k
    obtain ⟨l, ms, hb⟩ := hg b (List.mem_cons_self b rest)
    simp only [runBatches, callHook, hhs', make_step_eq hb]
    exact ih (fun x hx => hg x (List.mem_cons_of_mem b hx)) _ _ _ _

theorem run_one_epoch_progress {hs : ℕ → Option ℕ} {nm : ℕ} {loader : Loader}
    {steps : Option ℕ} (hhs : NoHookExc hs) (hg : GoodBatches loader.batches)
    {n : ℕ} (hso : stepsOrLen steps loader = .ok n) (st : RState) (tr : Trace) (k : ℕ) :
    ∃ tr' st' k',
      Runner._run_one_epoch hs nm false loader steps st tr k = (tr', .ok (st', k')) := by
  simp only [Runner._run_one_epoch, hso]
  simp only [Bool.false_eq_true, if_false]
  exact runBatches_progress hhs loader.batches hg 0 _ tr k

theorem evaluate_progress {hs : ℕ → Option ℕ} {nm : ℕ} {loader : Loader}
    {steps : Option ℕ} (hhs : NoHookExc hs) (hg : GoodBatches loader.batches)
    {n : ℕ} (hso : stepsOrLen steps loader = .ok n) (st : RState) (tr : Trace) (k : ℕ) :
    ∃ tr' st' k' rv,
      Runner.evaluate hs nm false loader steps st tr k = (tr', .ok (st', k', rv)) := by
  obtain ⟨tr', st', k', hrun⟩ := @run_one_epoch_progress hs nm loader steps hhs hg n hso
    { st with is_train := false, model_train_mode := false } tr k
  simp only [Runner.evaluate, hrun]
  exact ⟨tr', st', k', _, rfl⟩

/-! Error paths of the batch and epoch loops. -/

theorem runBatches_err {hs : ℕ → Option ℕ} {nm : ℕ} :
    ∀ (bs : List Batch) (i : ℕ) (st : RState) (tr : Trace) (k : ℕ) {tr' : Trace} {e : Err},
      runBatches hs nm bs i st tr k = (tr', .error e) →
      ∃ Δ, tr' = tr ++ Δ ∧
        (∀ x ∈ Δ, CtlEq st x.2 ∧ (st.is_train = false →
          x.2.zero_grad_calls = st.zero_grad_calls ∧
          x.2.opt_step_calls = st.opt_step_calls)) ∧
        (∀ h, h ≠ Hook.on_batch_begin → h ≠ Hook.on_batch_end → countH h Δ = 0) ∧
        ((∃ c, e = .hookExc c ∧ (tr.length = k → hs tr'.length = some c)) ∨
         (∃ c, e = .stepExc c ∧ (∃ x ∈ bs, x.res = .exc c) ∧
           countH .on_batch_begin Δ = countH .on_batch_end Δ + 1)) := by
  intro bs
  induction bs with
  | nil => intro i st tr k tr' e hrun; simp only [runBatches] at hrun; cases hrun
  | cons b rest ih =>
    intro i st tr k tr' e hrun
    simp only [runBatches] at hrun
    cases hk : hs k with
    | some c =>
      rw [callHook, hk] at hrun
      cases hrun
      refine ⟨[], by simp, fun x hx => absurd hx (List.not_mem_nil x), fun h _ _ => rfl, ?_⟩
      exact Or.inl ⟨c, rfl, fun htr => by rw [htr]; exact hk⟩
    | none =>
      rw [callHook, hk] at hrun
      simp only [] at hrun
      cases hb : b.res with
      | exc c =>
        rw [@make_step_exc nm b { st with step := i } c hb] at hrun
        cases hrun
        refine ⟨[(.on_batch_begin, { st with step := i })], by simp, ?_, ?_, ?_⟩
        · intro x hx
          rw [List.mem_singleton] at hx
          subst hx
          exact ⟨CtlEq.step_set st i, fun _ => ⟨rfl, rfl⟩⟩
        · intro h h1 _
          rw [countH_cons, countH_nil]
          simp [Ne.symm h1]
        · exact Or.inr ⟨c, rfl, ⟨b, List.mem_cons_self b rest, hb⟩, by
            rw [countH_cons, countH_cons, countH_nil, countH_nil]; simp⟩
      | val l ms =>
        obtain ⟨s2, he2, hctl2, hstep2, hlen2, hzg2, hos2, hm0, hmj, hhi⟩ :=
          @make_step_ok nm b { st with step := i } l ms hb
        rw [he2] at hrun
        simp only [] at hrun
        cases hk2 : hs (k + 1) with
        | some c =>
          rw [callHook, hk2] at hrun
          cases hrun
          refine ⟨[(.on_batch_begin, { st with step := i })], by simp, ?_, ?_, ?_⟩
          · intro x hx
            rw [List.mem_singleton] at hx
            subst hx
            exact ⟨CtlEq.step_set st i, fun _ => ⟨rfl, rfl⟩⟩
          · intro h h1 _
            rw [countH_cons, countH_nil]
            simp [Ne.symm h1]
          · refine Or.inl ⟨c, rfl, fun htr => ?_⟩
            have : (tr ++ [(Hook.on_batch_begin, { st with step := i })]).length = k + 1 := by
              simp [htr]
            rw [this]
            exact hk2
        | none =>
          rw [callHook, hk2] at hrun
          simp only [] at hrun
          obtain ⟨Δr, htr, hent, hcnt, hcl⟩ := ih (i + 1) s2 _ (k + 1 + 1) hrun
          have hctl_i : CtlEq st { st with step := i } := CtlEq.step_set st i
          have hctl_s2 : CtlEq st s2 := hctl_i.comp hctl2
          have hit : s2.is_train = st.is_train := hctl_s2.is_train
          refine ⟨(.on_batch_begin, { st with step := i }) :: (.on_batch_end, s2) :: Δr,
            by rw [htr]; simp, ?_, ?_, ?_⟩
          · intro x hx
            rcases List.mem_cons.1 hx with rfl | hx
            · exact ⟨hctl_i, fun _ => ⟨rfl, rfl⟩⟩
            rcases List.mem_cons.1 hx with rfl | hx
            · refine ⟨hctl_s2, fun hf => ?_⟩
              constructor
              · rw [hzg2]; simp [hf]
              · rw [hos2]; simp [hf]
            · obtain ⟨hc, hcnt2⟩ := hent x hx
              refine ⟨hctl_s2.comp hc, fun hf => ?_⟩
              obtain ⟨hz, ho⟩ := hcnt2 (by rw [hit, hf])
              constructor
              · rw [hz, hzg2]; simp [hf]
              · rw [ho, hos2]; simp [hf]
          · intro h h1 h2
            rw [countH_cons, countH_cons, hcnt h h1 h2]
            simp [Ne.symm h1, Ne.symm h2]
          · rcases hcl with ⟨c, he, himp⟩ | ⟨c, he, ⟨x, hx, hxres⟩, hrel⟩
            · refine Or.inl ⟨c, he, fun htr2 => himp ?_⟩
              simp [htr2]
            · refine Or.inr ⟨c, he, ⟨x, List.mem_cons_of_mem b hx, hxres⟩, ?_⟩
              rw [countH_cons, countH_cons, countH_cons, countH_cons]
              simp [hrel]

theorem run_one_epoch_err {hs : ℕ → Option ℕ} {nm : ℕ} {verbose : Bool} {loader : Loader}
    {steps : Option ℕ} {st : RState} {tr : Trace} {k : ℕ} {tr' : Trace} {e : Err}
    (h : Runner._run_one_epoch hs nm verbose loader steps st tr k = (tr', .error e)) :
    ∃ Δ, tr' = tr ++ Δ ∧
      (∀ x ∈ Δ, x.2.epoch = st.epoch ∧ x.2.is_train = st.is_train ∧
        (st.is_train = false → x.2.zero_grad_calls = st.zero_grad_calls ∧
          x.2.opt_step_calls = st.opt_step_calls)) ∧
      (∀ h2, h2 ≠ Hook.on_batch_begin → h2 ≠ Hook.on_batch_end → countH h2 Δ = 0) ∧
      ((e = .lenTypeError ∧ Δ = [] ∧ loader.hasLen = false ∧
          (steps = none ∨ steps = some 0)) ∨
       (e = .hasattrTypeError ∧ Δ = [] ∧ verbose = true) ∨
       (∃ c, e = .hookExc c ∧ (tr.length = k → hs tr'.length = some c)) ∨
       (∃ c, e = .stepExc c ∧ (∃ x ∈ loader.batches, x.res = .exc c) ∧
         countH .on_batch_begin Δ = countH .on_batch_end Δ + 1)) := by
  simp only [Runner._run_one_epoch] at h
  cases hso : stepsOrLen steps loader with
  | error e0 =>
    rw [hso] at h
    cases h
    obtain ⟨he0, hlen⟩ := stepsOrLen_err hso
    refine ⟨[], by simp, fun x hx => absurd hx (List.not_mem_nil x), fun _ _ _ => rfl, ?_⟩
    exact Or.inl ⟨he0, rfl, hlen, stepsOrLen_err_steps hso⟩
  | ok n =>
    rw [hso] at h
    cases hv : verbose
    case true =>
      rw [hv] at h
      simp only [if_true] at h
      cases h
      refine ⟨[], by simp, fun x hx => absurd hx (List.not_mem_nil x), fun _ _ _ => rfl, ?_⟩
      exact Or.inr (Or.inl ⟨rfl, rfl, rfl⟩)
    case false =>
      rw [hv] at h
      simp only [Bool.false_eq_true, if_false] at h
      obtain ⟨Δ, htr, hent, hcnt, hcl⟩ := runBatches_err loader.batches 0 _ tr k h
      have hrc : CtlEq st (metricReset nm (st.mset 0 ((st.mget 0).reset))) := resetSt_ctl nm st
      refine ⟨Δ, htr, ?_, hcnt, ?_⟩
      · intro x hx
        obtain ⟨hc, hcnt2⟩ := hent x hx
        refine ⟨?_, ?_, ?_⟩
        · rw [hc.epoch]; exact hrc.epoch
        · rw [hc.is_train]; exact hrc.is_train
        · intro hf
          obtain ⟨hz, ho⟩ := hcnt2 (by
            show ({ metricReset nm (st.mset 0 ((st.mget 0).reset)) with ep_size := n } : RState).is_train = false
            rw [show ({ metricReset nm (st.mset 0 ((st.mget 0).reset)) with ep_size := n } : RState).is_train = st.is_train from hrc.is_train, hf])
          rw [hz, ho]
          exact ⟨resetSt_zg nm st, resetSt_os nm st⟩
      · rcases hcl with ⟨c, he, himp⟩ | hstep
        · exact Or.inr (Or.inr (Or.inl ⟨c, he, himp⟩))
        · exact Or.inr (Or.inr (Or.inr hstep))

theorem evaluate_err {hs : ℕ → Option ℕ} {nm : ℕ} {verbose : Bool} {loader : Loader}
    {steps : Option ℕ} {st : RState} {tr : Trace} {k : ℕ} {tr' : Trace} {e : Err}
    (h : Runner.evaluate hs nm verbose loader steps st tr k = (tr', .error e)) :
    ∃ Δ, tr' = tr ++ Δ ∧
      (∀ x ∈ Δ, x.2.epoch = st.epoch ∧ x.2.is_train = false ∧
        x.2.zero_grad_calls = st.zero_grad_calls ∧
        x.2.opt_step_calls = st.opt_step_calls) ∧
      (∀ h2, h2 ≠ Hook.on_batch_begin → h2 ≠ Hook.on_batch_end → countH h2 Δ = 0) ∧
      ((e = .lenTypeError ∧ Δ = [] ∧ loader.hasLen = false ∧
          (steps = none ∨ steps = some 0)) ∨
       (e = .hasattrTypeError ∧ Δ = [] ∧ verbose = true) ∨
       (∃ c, e = .hookExc c ∧ (tr.length = k → hs tr'.length = some c)) ∨
       (∃ c, e = .stepExc c ∧ (∃ x ∈ loader.batches, x.res = .exc c) ∧
         countH .on_batch_begin Δ = countH .on_batch_end Δ + 1)) := by
  simp only [Runner.evaluate] at h
  cases hre : Runner._run_one_epoch hs nm verbose loader steps
      { st with is_train := false, model_train_mode := false } tr k with
  | mk tr2 out =>
    rw [hre] at h
    cases out with
    | error e0 =>
      cases h
      obtain ⟨Δ, htr, hent, hcnt, hcl⟩ := run_one_epoch_err hre
      refine ⟨Δ, htr, ?_, hcnt, hcl⟩
      intro x hx
      obtain ⟨hep, hit, hcnt2⟩ := hent x hx
      obtain ⟨hz, ho⟩ := hcnt2 rfl
      exact ⟨hep, hit, hz, ho⟩
    | ok p => cases h

/-! Heap-frame (`Seg`) lemmas for the batch and epoch loops. -/

theorem runBatches_seg {hs : ℕ → Option ℕ} {nm : ℕ} :
    ∀ (bs : List Batch) (i : ℕ) (st : RState) (tr : Trace) (k : ℕ)
      {tr' : Trace} {st' : RState} {k' : ℕ},
      runBatches hs nm bs i st tr k = (tr', .ok (st', k')) →
      ∃ Δ, tr' = tr ++ Δ ∧ Seg nm st st' Δ := by
  intro bs
  induction bs with
  | nil =>
    intro i st tr k tr' st' k' hrun
    simp only [runBatches] at hrun
    obtain ⟨rfl, h2⟩ := Prod.mk.injEq .. ▸ hrun
    obtain ⟨rfl, rfl⟩ : st = st' ∧ k = k' := by cases h2; exact ⟨rfl, rfl⟩
    exact ⟨[], by simp, Seg.nil (SnapFrame.here nm st)⟩
  | cons b rest ih =>
    intro i st tr k tr' st' k' hrun
    simp only [runBatches] at hrun
    cases hk : hs k with
    | some c => rw [callHook, hk] at hrun; cases hrun
    | none =>
      rw [callHook, hk] at hrun
      simp only [] at hrun
      cases hb : b.res with
      | exc c =>
        rw [@make_step_exc nm b { st with step := i } c hb] at hrun
        cases hrun
      | val l ms =>
        obtain ⟨s2, he2, _, _, _, _, _, _, _, _⟩ :=
          @make_step_ok nm b { st with step := i } l ms hb
        rw [he2] at hrun
        simp only [] at hrun
        cases hk2 : hs (k + 1) with
        | some c => rw [callHook, hk2] at hrun; cases hrun
        | none =>
          rw [callHook, hk2] at hrun
          simp only [] at hrun
          obtain ⟨Δr, htr, hseg⟩ := ih (i + 1) s2 _ (k + 1 + 1) hrun
          refine ⟨(.on_batch_begin, { st with step := i }) :: (.on_batch_end, s2) :: Δr,
            by rw [htr]; simp, ?_⟩
          exact Seg.cons _ (SnapFrame.of_heap_eq rfl)
            (Seg.cons _ (SnapFrame.make_step he2) hseg)

theorem run_one_epoch_seg {hs : ℕ → Option ℕ} {nm : ℕ} {verbose : Bool} {loader : Loader}
    {steps : Option ℕ} {st : RState} {tr : Trace} {k : ℕ} {tr' : Trace} {st' : RState} {k' : ℕ}
    (h : Runner._run_one_epoch hs nm verbose loader steps st tr k = (tr', .ok (st', k'))) :
    ∃ Δ, tr' = tr ++ Δ ∧ Seg nm st st' Δ := by
  simp only [Runner._run_one_epoch] at h
  cases hso : stepsOrLen steps loader with
  | error e => rw [hso] at h; cases h
  | ok n =>
    rw [hso] at h
    cases hv : verbose
    case true => rw [hv] at h; simp only [if_true] at h; cases h
    case false =>
      rw [hv] at h
      simp only [Bool.false_eq_true, if_false] at h
      obtain ⟨Δ, htr, hseg⟩ := runBatches_seg loader.batches 0 _ tr k h
      refine ⟨Δ, htr, ?_⟩
      have hf1 : SnapFrame nm st (metricReset nm (st.mset 0 ((st.mget 0).reset))) := by
        rw [metricReset]
        exact (SnapFrame.mset_live nm st _ (Nat.zero_le nm)).chain (SnapFrame.cellsFold nm _ _)
      have hf2 : SnapFrame nm st
          { metricReset nm (st.mset 0 ((st.mget 0).reset)) with ep_size := n } :=
        hf1.chain (SnapFrame.of_heap_eq rfl)
      exact ⟨hf2.chain hseg.1,
        fun x hx => ⟨hf2.chain (hseg.2.1 x hx).1, (hseg.2.1 x hx).2⟩, hseg.2.2⟩

theorem evaluate_seg {hs : ℕ → Option ℕ} {nm : ℕ} {verbose : Bool} {loader : Loader}
    {steps : Option ℕ} {st : RState} {tr : Trace} {k : ℕ} {tr' : Trace} {st' : RState}
    {k' : ℕ} {rv : ℚ × List ℚ}
    (h : Runner.evaluate hs nm verbose loader steps st tr k = (tr', .ok (st', k', rv))) :
    ∃ Δ, tr' = tr ++ Δ ∧ Seg nm st st' Δ := by
  simp only [Runner.evaluate] at h
  cases hre : Runner._run_one_epoch hs nm verbose loader steps
      { st with is_train := false, model_train_mode := false } tr k with
  | mk tr2 out =>
    rw [hre] at h
    cases out with
    | error e0 => cases h
    | ok p =>
      obtain ⟨s2, k2⟩ := p
      cases h
      obtain ⟨Δ, htr, hseg⟩ := run_one_epoch_seg hre
      refine ⟨Δ, htr, ?_⟩
      have hf : SnapFrame nm st { st with is_train := false, model_train_mode := false } :=
        SnapFrame.of_heap_eq rfl
      exact ⟨hf.chain hseg.1, fun x hx => ⟨hf.chain (hseg.2.1 x hx).1, (hseg.2.1 x hx).2⟩,
        hseg.2.2⟩

/-! Concrete fixtures used by claim witnesses and counterexamples. -/

/-- Callbacks that never raise. -/
def noFailHooks : ℕ → Option ℕ := fun _ => none

/-- A batch whose step computes normally. -/
def okBatch (l : ℚ) (ms : List ℚ) : Batch := ⟨.val l ms⟩

/-- A 3-batch source with length and batch size, one metric. -/
def demoLoader : Loader := ⟨[okBatch 1 [2], okBatch 3 [4], okBatch 5 [6]], true, some 4⟩

/-- A source that exposes no `__len__`. -/
def noLenLoader : Loader := ⟨[okBatch 1 []], false, none⟩

/-- Payload of a successful `evaluate` result (defaults on error). -/
def evalOut (r : Trace × Except Err (RState × ℕ × (ℚ × List ℚ))) :
    RState × ℕ × (ℚ × List ℚ) :=
  match r.2 with
  | .ok p => p
  | .error _ => (RState.mk0 0, 0, (0, []))

/-- Payload of a successful `fit` / `_run_one_epoch` result (defaults on error). -/
def fitOut (r : Trace × Except Err (RState × ℕ)) : RState × ℕ :=
  match r.2 with
  | .ok p => p
  | .error _ => (RState.mk0 0, 0)

/-! Claim C2. -/

/-- C2: the claim says that with verbose mode enabled each processed batch
surfaces a live smoothed-loss/metric readout and the loop otherwise behaves
as with verbose disabled.  The code instead always raises before the first
batch: `hasattr(tqdm._instances)` passes a single argument to `hasattr`,
which requires two — so every verbose `_run_one_epoch` call aborts with a
`TypeError` (or, when the source also lacks a length, the earlier `len`
`TypeError`), appending no hook broadcast at all. -/
theorem verbose_epoch_always_raises (hs : ℕ → Option ℕ) (nm : ℕ) (loader : Loader)
    (steps : Option ℕ) (st : RState) (tr : Trace) (k : ℕ) :
    ∃ e, Runner._run_one_epoch hs nm true loader steps st tr k = (tr, .error e) ∧
      (e = Err.hasattrTypeError ∨ e = Err.lenTypeError) := by
  simp only [Runner._run_one_epoch]
  cases hso : stepsOrLen steps loader with
  | error e0 =>
    obtain ⟨he0, -⟩ := stepsOrLen_err hso
    exact ⟨e0, rfl, Or.inr he0⟩
  | ok n => exact ⟨Err.hasattrTypeError, rfl, Or.inl rfl⟩

/-- C2 witness: a concrete verbose run on a 3-batch source raises the
`hasattr` `TypeError` with an empty trace: no batch was processed and no
progress readout ever appears. -/
theorem verbose_epoch_always_raises_witness :
    Runner._run_one_epoch noFailHooks 1 true demoLoader none (RState.mk0 1) [] 0 =
      ([], .error Err.hasattrTypeError) ∧
    countH .on_batch_begin
      (Runner._run_one_epoch noFailHooks 1 true demoLoader none (RState.mk0 1) [] 0).1 = 0 := by
  obtain ⟨e, he, hcase⟩ :=
    verbose_epoch_always_raises noFailHooks 1 demoLoader none (RState.mk0 1) [] 0
  rcases hcase with rfl | rfl
  · exact ⟨he, by rw [he]; rfl⟩
  · exact absurd he (by intro h; cases h)

/-! Claim C3. -/

/-- C3 counterexample: the claim says the recorded `ep_size` equals the
explicit steps argument whenever one is provided.  Providing `steps = 0`
on a 3-batch source records `ep_size = 3`, not 0: the Python expression
`steps or len(loader)` treats an explicit 0 like an absent argument. -/
theorem ep_size_cex :
    (Runner._run_one_epoch noFailHooks 0 false demoLoader (some 0)
        (RState.mk0 0) [] 0).2 =
      .ok (fitOut (Runner._run_one_epoch noFailHooks 0 false demoLoader (some 0)
        (RState.mk0 0) [] 0)) ∧
    (fitOut (Runner._run_one_epoch noFailHooks 0 false demoLoader (some 0)
        (RState.mk0 0) [] 0)).1.ep_size = 3 ∧ (3 : ℕ) ≠ 0 :=
  ⟨rfl, rfl, by decide⟩

/-- C3 amended: on every successful inner-epoch call the recorded `ep_size`
equals the explicit steps argument when a nonzero one is provided, and the
length of the data source otherwise (steps absent or equal to 0). -/
theorem ep_size_amended {hs : ℕ → Option ℕ} {nm : ℕ} {verbose : Bool} {loader : Loader}
    {steps : Option ℕ} {st : RState} {tr : Trace} {k : ℕ} {tr' : Trace} {st' : RState} {k' : ℕ}
    (h : Runner._run_one_epoch hs nm verbose loader steps st tr k = (tr', .ok (st', k'))) :
    (∀ s, steps = some s → s ≠ 0 → st'.ep_size = s) ∧
    (steps = none ∨ steps = some 0 → st'.ep_size = loader.batches.length) := by
  obtain ⟨-, Δ, -, E⟩ := run_one_epoch_ok h
  have hn := stepsOrLen_ok E.n_ok
  constructor
  · intro s hsv hs0
    subst hsv
    simpa [hs0] using hn
  · rintro (hsv | hsv) <;> subst hsv <;> simpa using hn

/-- C3 amended, witness: a 3-batch source with explicit `steps = 2` records
`ep_size = 2`; with no explicit steps it records 3. -/
theorem ep_size_amended_witness :
    (fitOut (Runner._run_one_epoch noFailHooks 0 false demoLoader (some 2)
        (RState.mk0 0) [] 0)).1.ep_size = 2 ∧
    (fitOut (Runner._run_one_epoch noFailHooks 0 false demoLoader none
        (RState.mk0 0) [] 0)).1.ep_size = 3 := by
  constructor
  · exact (@ep_size_amended noFailHooks 0 false demoLoader (some 2) (RState.mk0 0) [] 0
      (Runner._run_one_epoch noFailHooks 0 false demoLoader (some 2) (RState.mk0 0) [] 0).1
      (fitOut (Runner._run_one_epoch noFailHooks 0 false demoLoader (some 2)
        (RState.mk0 0) [] 0)).1
      (fitOut (Runner._run_one_epoch noFailHooks 0 false demoLoader (some 2)
        (RState.mk0 0) [] 0)).2 rfl).1 2 rfl (by decide)
  · exact (@ep_size_amended noFailHooks 0 false demoLoader none (RState.mk0 0) [] 0
      (Runner._run_one_epoch noFailHooks 0 false demoLoader none (RState.mk0 0) [] 0).1
      (fitOut (Runner._run_one_epoch noFailHooks 0 false demoLoader none
        (RState.mk0 0) [] 0)).1
      (fitOut (Runner._run_one_epoch noFailHooks 0 false demoLoader none
        (RState.mk0 0) [] 0)).2 rfl).2 (Or.inl rfl)

/-! Claim C4. -/

theorem run_one_epoch_noLen {hs : ℕ → Option ℕ} {nm : ℕ} {verbose : Bool} {loader : Loader}
    (hlen : loader.hasLen = false) (st : RState) (tr : Trace) (k : ℕ) :
    Runner._run_one_epoch hs nm verbose loader none st tr k = (tr, .error .lenTypeError) := by
  simp only [Runner._run_one_epoch, stepsOrLen_none_noLen hlen]

/-- C4 counterexample: the claim says every `fit` call with no explicit
step count on a length-less source raises a configuration error.  A `fit`
call with `epochs = 0` (so that the epoch loop body never runs) returns
normally — nothing raises, although indeed zero batches were processed. -/
theorem no_len_fit_cex :
    (Runner.fitRun noFailHooks 0 false noLenLoader none none none 0 0).2 =
      .ok (fitOut (Runner.fitRun noFailHooks 0 false noLenLoader none none none 0 0)) ∧
    countH .on_batch_begin
      (Runner.fitRun noFailHooks 0 false noLenLoader none none none 0 0).1 = 0 :=
  ⟨rfl, by decide⟩

/-- C4 amended: with no explicit step count on a source exposing no
length, `evaluate` always raises the length `TypeError` before any batch
and before any hook broadcast; `fit` raises it, with zero batch-begin
broadcasts, provided at least one epoch is scheduled
(`start_epoch < epochs`) and the callbacks themselves do not raise
earlier (when `epochs ≤ start_epoch` the epoch body never runs and the
call returns normally, still with zero batches). -/
theorem no_len_raises :
    (∀ (hs : ℕ → Option ℕ) (nm : ℕ) (verbose : Bool) (loader : Loader) (st : RState)
      (tr : Trace) (k : ℕ), loader.hasLen = false →
      Runner.evaluate hs nm verbose loader none st tr k = (tr, .error .lenTypeError)) ∧
    (∀ (hs : ℕ → Option ℕ) (nm : ℕ) (verbose : Bool) (loader : Loader)
      (vl : Option Loader) (vs : Option ℕ) (E s : ℕ), NoHookExc hs →
      loader.hasLen = false → s < E →
      ∃ tr, Runner.fitRun hs nm verbose loader none vl vs E s = (tr, .error .lenTypeError) ∧
        countH .on_batch_begin tr = 0) := by
  constructor
  · intro hs nm verbose loader st tr k hlen
    simp only [Runner.evaluate, run_one_epoch_noLen hlen]
  · intro hs nm verbose loader vl vs E s hhs hlen hse
    have hhs' : ∀ n, hs n = none := hhs
    obtain ⟨n, hn⟩ : ∃ n, E - s = n + 1 := ⟨E - s - 1, by omega⟩
    simp only [Runner.fitRun, Runner.fit, callHook, hhs', hn, List.range'_succ,
      Runner.fitEpochs, run_one_epoch_noLen hlen]
    refine ⟨_, rfl, ?_⟩
    rw [countH_append, countH_append, countH_cons]
    rfl

/-- C4 amended, witness: on the concrete length-less source, `evaluate`
raises at once with an empty trace, and `fit` with one scheduled epoch
raises with no batch-begin broadcast. -/
theorem no_len_raises_witness :
    Runner.evaluate noFailHooks 0 false noLenLoader none (RState.mk0 0) [] 0 =
      ([], .error .lenTypeError) ∧
    (∃ tr, Runner.fitRun noFailHooks 0 false noLenLoader none none none 1 0 =
      (tr, .error .lenTypeError) ∧ countH .on_batch_begin tr = 0) :=
  ⟨no_len_raises.1 noFailHooks 0 false noLenLoader (RState.mk0 0) [] 0 (by decide),
   no_len_raises.2 noFailHooks 0 false noLenLoader none none 1 0
     (fun _ => rfl) (by decide) (by decide)⟩

/-! Claim C5. -/

/-- C5: for every data source, step cap, starting context and callback
behaviour, `evaluate` never invokes the optimizer's gradient-clear or
update operations: every run context recorded at a hook broadcast during
the call, and the final context of a successful call, carry unchanged
`zero_grad`/`step` call counters and `is_train = false` — the training
branch of `_make_step` is unreachable while `is_train` is false. -/
theorem evaluate_no_optimizer (hs : ℕ → Option ℕ) (nm : ℕ) (verbose : Bool)
    (loader : Loader) (steps : Option ℕ) (st : RState) (tr : Trace) (k : ℕ) :
    (∀ x ∈ (Runner.evaluate hs nm verbose loader steps st tr k).1.drop tr.length,
      x.2.is_train = false ∧ x.2.zero_grad_calls = st.zero_grad_calls ∧
        x.2.opt_step_calls = st.opt_step_calls) ∧
    (∀ st' k' rv, (Runner.evaluate hs nm verbose loader steps st tr k).2 = .ok (st', k', rv) →
      st'.is_train = false ∧ st'.zero_grad_calls = st.zero_grad_calls ∧
        st'.opt_step_calls = st.opt_step_calls) := by
  cases hr : Runner.evaluate hs nm verbose loader steps st tr k with
  | mk tr2 out =>
    cases out with
    | error e =>
      obtain ⟨Δ, htr, hent, -, -⟩ := evaluate_err hr
      constructor
      · intro x hx
        rw [htr, List.drop_left] at hx
        obtain ⟨-, hit, hz, ho⟩ := hent x hx
        exact ⟨hit, hz, ho⟩
      · intro st' k' rv hok
        cases hok
    | ok p =>
      obtain ⟨s2, k2, rv2⟩ := p
      obtain ⟨hv, Δ, htr, E, hrv⟩ := evaluate_ok hr
      constructor
      · intro x hx
        rw [htr, List.drop_left] at hx
        obtain ⟨-, hit, -, -, hcnt, -⟩ := E.entries x hx
        obtain ⟨hz, ho⟩ := hcnt rfl
        exact ⟨hit, hz, ho⟩
      · intro st' k' rv hok
        cases hok
        refine ⟨E.is_train, ?_, ?_⟩
        · rw [E.zg]; simp
        · rw [E.os]; simp
  
/-- C5 witness: on the concrete 3-batch source, a successful `evaluate`
keeps both optimizer counters at 0 and ends with `is_train = false`. -/
theorem evaluate_no_optimizer_witness :
    (Runner.evaluate noFailHooks 1 false demoLoader none (RState.mk0 1) [] 0).2 =
      .ok (evalOut (Runner.evaluate noFailHooks 1 false demoLoader none (RState.mk0 1) [] 0)) ∧
    (evalOut (Runner.evaluate noFailHooks 1 false demoLoader none
      (RState.mk0 1) [] 0)).1.is_train = false ∧
    (evalOut (Runner.evaluate noFailHooks 1 false demoLoader none
      (RState.mk0 1) [] 0)).1.zero_grad_calls = 0 ∧
    (evalOut (Runner.evaluate noFailHooks 1 false demoLoader none
      (RState.mk0 1) [] 0)).1.opt_step_calls = 0 := by
  have H := (evaluate_no_optimizer noFailHooks 1 false demoLoader none
    (RState.mk0 1) [] 0).2
    (evalOut (Runner.evaluate noFailHooks 1 false demoLoader none (RState.mk0 1) [] 0)).1
    (evalOut (Runner.evaluate noFailHooks 1 false demoLoader none (RState.mk0 1) [] 0)).2.1
    (evalOut (Runner.evaluate noFailHooks 1 false demoLoader none (RState.mk0 1) [] 0)).2.2
    rfl
  exact ⟨rfl, H.1, H.2.1, H.2.2⟩

/-! Claim C8. -/

/-- C8: every successful `evaluate` call has set `is_train = false` and
switched the model to evaluation mode before the inner loop ran (every
recorded context shows both flags off, as does the final context), and
returns the pair of the cumulative loss average over exactly the
processed batches and, in metric-declaration order, the cumulative
average of each metric meter. -/
theorem evaluate_returns {hs : ℕ → Option ℕ} {nm : ℕ} {verbose : Bool} {loader : Loader}
    {steps : Option ℕ} {st : RState} {tr : Trace} {k : ℕ} {tr' : Trace} {st' : RState}
    {k' : ℕ} {lavg : ℚ} {mavgs : List ℚ}
    (h : Runner.evaluate hs nm verbose loader steps st tr k =
      (tr', .ok (st', k', (lavg, mavgs))))
    (hheap : nm + 1 ≤ st.heap.length) :
    st'.is_train = false ∧ st'.model_train_mode = false ∧
    (∀ x ∈ tr'.drop tr.length, x.2.is_train = false ∧ x.2.model_train_mode = false) ∧
    lavg = (meterOf (loader.batches.map lossOf)).avg ∧
    mavgs = (List.range nm).map (fun j => (meterOf (loader.batches.map (colVal j))).avg) ∧
    (meterOf (loader.batches.map lossOf)).count = loader.batches.length := by
  obtain ⟨hv, Δ, htr, E, hrv⟩ := evaluate_ok h
  have hl0 : (0 : ℕ) < st.heap.length := by omega
  refine ⟨E.is_train, E.model_mode, ?_, ?_, ?_, ?_⟩
  · intro x hx
    rw [htr, List.drop_left] at hx
    obtain ⟨-, hit, hmm, -, -, -⟩ := E.entries x hx
    exact ⟨hit, hmm⟩
  · have := congrArg Prod.fst hrv
    simp only [] at this
    rw [this, E.loss hl0]
  · have := congrArg Prod.snd hrv
    simp only [] at this
    rw [this]
    refine List.map_congr_left ?_
    intro j hj
    have hjn : j < nm := List.mem_range.1 hj
    rw [E.mets (j + 1) (by omega) (by omega) (by show j + 1 < st.heap.length; omega)]
    simp
  · rw [meterOf_count, List.length_map]

/-- C8 witness: on the 3-batch one-metric source, a successful `evaluate`
ends in evaluation mode and returns exactly the cumulative averages. -/
theorem evaluate_returns_witness :
    (Runner.evaluate noFailHooks 1 false demoLoader none (RState.mk0 1) [] 0).2 =
      .ok (evalOut (Runner.evaluate noFailHooks 1 false demoLoader none (RState.mk0 1) [] 0)) ∧
    (evalOut (Runner.evaluate noFailHooks 1 false demoLoader none
      (RState.mk0 1) [] 0)).1.is_train = false ∧
    (evalOut (Runner.evaluate noFailHooks 1 false demoLoader none
      (RState.mk0 1) [] 0)).2.2.1 = (meterOf (demoLoader.batches.map lossOf)).avg ∧
    (evalOut (Runner.evaluate noFailHooks 1 false demoLoader none
      (RState.mk0 1) [] 0)).2.2.2 =
      [(meterOf (demoLoader.batches.map (colVal 0))).avg] ∧
    (meterOf (demoLoader.batches.map lossOf)).count = 3 := by
  have H := @evaluate_returns noFailHooks 1 false demoLoader none (RState.mk0 1) [] 0
    (Runner.evaluate noFailHooks 1 false demoLoader none (RState.mk0 1) [] 0).1
    (evalOut (Runner.evaluate noFailHooks 1 false demoLoader none (RState.mk0 1) [] 0)).1
    (evalOut (Runner.evaluate noFailHooks 1 false demoLoader none (RState.mk0 1) [] 0)).2.1
    (evalOut (Runner.evaluate noFailHooks 1 false demoLoader none (RState.mk0 1) [] 0)).2.2.1
    (evalOut (Runner.evaluate noFailHooks 1 false demoLoader none (RState.mk0 1) [] 0)).2.2.2
    rfl (by decide)
  refine ⟨rfl, H.1, H.2.2.2.1, ?_, H.2.2.2.2.2⟩
  have := H.2.2.2.2.1
  simpa using this

/-! Claim C10. -/

/-- A concrete decoder model: identity-like opaque layers. -/
def demoDecoder : UnetDecoderModel :=
  ⟨some (fun v => v), fun a _ => a, fun a _ => a, fun a _ => a, fun a _ => a,
   fun a _ => a, fun v => v, fun v => v⟩

/-- C10: `UnetCenterBlock.forward` evaluates the wrapped block and returns
`None` (the block's result is discarded), so a decoder built with
`center=True` feeds `None` as the first argument of its first layer:
the whole forward pass factors through `layer1 None skips[0]`. -/
theorem center_block_returns_none (m : UnetDecoderModel) (x : List PVal) (cb : PVal → PVal)
    (hc : m.center = some cb) :
    (∀ y, UnetCenterBlock.forward cb y = PVal.none) ∧
    UnetDecoder.forward m x =
      m.final_conv (m.dropout (m.layer5 (m.layer4 (m.layer3 (m.layer2
        (m.layer1 PVal.none ((x.drop 1).getD 0 PVal.none))
        ((x.drop 1).getD 1 PVal.none)) ((x.drop 1).getD 2 PVal.none))
        ((x.drop 1).getD 3 PVal.none)) PVal.none)) := by
  refine ⟨fun y => rfl, ?_⟩
  simp [UnetDecoder.forward, hc, UnetCenterBlock.forward]

/-- C10 witness: in the concrete decoder with a center block, the forward
pass on a tensor input returns `None` carried through from the discarded
center-block result. -/
theorem center_block_returns_none_witness :
    demoDecoder.center = some (fun v => v) ∧
    UnetDecoder.forward demoDecoder [PVal.tensor 7, PVal.tensor 8, PVal.tensor 9,
      PVal.tensor 10, PVal.tensor 11] = PVal.none := by
  have H := (center_block_returns_none demoDecoder
    [PVal.tensor 7, PVal.tensor 8, PVal.tensor 9, PVal.tensor 10, PVal.tensor 11]
    (fun v => v) rfl).2
  exact ⟨rfl, H.trans rfl⟩

/-! Snapshot blocks of the epoch loop. -/

theorem metricIdxs_length (nm : ℕ) : (metricIdxs nm).length = nm := by
  simp [metricIdxs]

theorem snapTrain_state (nm : ℕ) (st : RState) :
    ∃ hp jl jm, snapTrain nm st =
      { st with heap := hp, train_loss := some jl, train_metrics := jm } ∧
      hp.length = st.heap.length + (nm + 1) ∧
      st.heap.length ≤ jl ∧ jl < hp.length ∧
      (∀ j ∈ jm, st.heap.length ≤ j ∧ j < hp.length) ∧
      SnapFrame nm st (snapTrain nm st) := by
  obtain ⟨hp0, hq⟩ := copyMeters_state (metricIdxs nm)
    { (copyMeter st 0).1 with train_loss := some (copyMeter st 0).2 }
  have hlen : hp0.length = st.heap.length + (nm + 1) := by
    have h1 := copyMeters_length (metricIdxs nm)
      { (copyMeter st 0).1 with train_loss := some (copyMeter st 0).2 }
    rw [hq] at h1
    simp only [metricIdxs_length] at h1
    rw [h1]
    show ((copyMeter st 0).1.heap).length + nm = _
    rw [copyMeter, RState.alloc_length]
    ring
  have hres : snapTrain nm st =
      { st with
        heap := hp0
        train_loss := some st.heap.length
        train_metrics := (copyMeters { (copyMeter st 0).1 with
          train_loss := some (copyMeter st 0).2 } (metricIdxs nm)).2 } := by
    show { (copyMeters { (copyMeter st 0).1 with train_loss := some (copyMeter st 0).2 }
        (metricIdxs nm)).1 with
        train_metrics := (copyMeters { (copyMeter st 0).1 with
          train_loss := some (copyMeter st 0).2 } (metricIdxs nm)).2 } = _
    rw [hq]
    rfl
  refine ⟨hp0, st.heap.length, _, hres, hlen, le_rfl, by omega, ?_, ?_⟩
  · intro j hj
    obtain ⟨h1, h2⟩ := copyMeters_fresh nm (metricIdxs nm)
      { (copyMeter st 0).1 with train_loss := some (copyMeter st 0).2 } j hj
    rw [hq] at h2
    constructor
    · refine le_trans ?_ h1
      show st.heap.length ≤ ((copyMeter st 0).1.heap).length
      rw [copyMeter, RState.alloc_length]
      omega
    · exact h2
  · have f1 : SnapFrame nm st (copyMeter st 0).1 := SnapFrame.alloc nm st _
    have f2 : SnapFrame nm (copyMeter st 0).1
        { (copyMeter st 0).1 with train_loss := some (copyMeter st 0).2 } :=
      SnapFrame.of_heap_eq rfl
    have f3 := copyMeters_frame nm (metricIdxs nm)
      { (copyMeter st 0).1 with train_loss := some (copyMeter st 0).2 }
    have f4 : SnapFrame nm (copyMeters { (copyMeter st 0).1 with
        train_loss := some (copyMeter st 0).2 } (metricIdxs nm)).1 (snapTrain nm st) := by
      refine SnapFrame.of_heap_eq ?_
      simp only [snapTrain]
    exact ((f1.chain f2).chain f3).chain f4

theorem snapVal_state (nm : ℕ) (st : RState) :
    ∃ hp jl jm, snapVal nm st =
      { st with heap := hp, val_loss := some jl, val_metrics := jm } ∧
      hp.length = st.heap.length + (nm + 1) ∧
      st.heap.length ≤ jl ∧ jl < hp.length ∧
      (∀ j ∈ jm, st.heap.length ≤ j ∧ j < hp.length) ∧
      SnapFrame nm st (snapVal nm st) := by
  obtain ⟨hp0, hq⟩ := copyMeters_state (metricIdxs nm)
    { (copyMeter st 0).1 with val_loss := some (copyMeter st 0).2 }
  have hlen : hp0.length = st.heap.length + (nm + 1) := by
    have h1 := copyMeters_length (metricIdxs nm)
      { (copyMeter st 0).1 with val_loss := some (copyMeter st 0).2 }
    rw [hq] at h1
    simp only [metricIdxs_length] at h1
    rw [h1]
    show ((copyMeter st 0).1.heap).length + nm = _
    rw [copyMeter, RState.alloc_length]
    ring
  have hres : snapVal nm st =
      { st with
        heap := hp0
        val_loss := some st.heap.length
        val_metrics := (copyMeters { (copyMeter st 0).1 with
          val_loss := some (copyMeter st 0).2 } (metricIdxs nm)).2 } := by
    show { (copyMeters { (copyMeter st 0).1 with val_loss := some (copyMeter st 0).2 }
        (metricIdxs nm)).1 with
        val_metrics := (copyMeters { (copyMeter st 0).1 with
          val_loss := some (copyMeter st 0).2 } (metricIdxs nm)).2 } = _
    rw [hq]
    rfl
  refine ⟨hp0, st.heap.length, _, hres, hlen, le_rfl, by omega, ?_, ?_⟩
  · intro j hj
    obtain ⟨h1, h2⟩ := copyMeters_fresh nm (metricIdxs nm)
      { (copyMeter st 0).1 with val_loss := some (copyMeter st 0).2 } j hj
    rw [hq] at h2
    constructor
    · refine le_trans ?_ h1
      show st.heap.length ≤ ((copyMeter st 0).1.heap).length
      rw [copyMeter, RState.alloc_length]
      omega
    · exact h2
  · have f1 : SnapFrame nm st (copyMeter st 0).1 := SnapFrame.alloc nm st _
    have f2 : SnapFrame nm (copyMeter st 0).1
        { (copyMeter st 0).1 with val_loss := some (copyMeter st 0).2 } :=
      SnapFrame.of_heap_eq rfl
    have f3 := copyMeters_frame nm (metricIdxs nm)
      { (copyMeter st 0).1 with val_loss := some (copyMeter st 0).2 }
    have f4 : SnapFrame nm (copyMeters { (copyMeter st 0).1 with
        val_loss := some (copyMeter st 0).2 } (metricIdxs nm)).1 (snapVal nm st) := by
      refine SnapFrame.of_heap_eq ?_
      simp only [snapVal]
    exact ((f1.chain f2).chain f3).chain f4

/-- Number of batches one validation pass adds per epoch. -/
def valLen : Option Loader → ℕ
  | none => 0
  | some vloader => vloader.batches.length

theorem epochsSeen_cons (x : Hook × RState) (tr : Trace) :
    epochsSeen (x :: tr) =
      (if x.1 = Hook.on_epoch_begin then [x.2.epoch] else []) ++ epochsSeen tr := by
  by_cases hx : x.1 = Hook.on_epoch_begin <;> simp [epochsSeen, List.filter_cons, hx]

/-- Properties of a successful epoch-loop pass over the epoch indices
`es` (appending `Δ` to the trace, moving the hook counter from `k` to
`k'`). -/
structure FOut (Lt : Loader) (vl : Option Loader) (es : List ℕ) (k : ℕ)
    (Δ : Trace) (k' : ℕ) : Prop where
  cnt_eb : countH .on_epoch_begin Δ = es.length
  cnt_ee : countH .on_epoch_end Δ = es.length
  cnt_tb : countH .on_train_begin Δ = 0
  cnt_te : countH .on_train_end Δ = 0
  cnt_bb : countH .on_batch_begin Δ = es.length * (Lt.batches.length + valLen vl)
  cnt_be : countH .on_batch_end Δ = es.length * (Lt.batches.length + valLen vl)
  seen : epochsSeen Δ = es
  entries_ep : ∀ x ∈ Δ, x.2.epoch ∈ es
  per_bb : es.Nodup → ∀ e ∈ es,
    countHEp .on_batch_begin e Δ = Lt.batches.length + valLen vl
  per_be : es.Nodup → ∀ e ∈ es,
    countHEp .on_batch_end e Δ = Lt.batches.length + valLen vl
  dlen : Δ.length = es.length * (2 * (Lt.batches.length + valLen vl) + 2)
  k_eq : k' = k + es.length * (2 * (Lt.batches.length + valLen vl) + 2)

theorem snapTrain_epoch (nm : ℕ) (st : RState) : (snapTrain nm st).epoch = st.epoch := by
  obtain ⟨hp, jl, jm, he, -⟩ := snapTrain_state nm st
  rw [he]

theorem snapVal_epoch (nm : ℕ) (st : RState) : (snapVal nm st).epoch = st.epoch := by
  obtain ⟨hp, jl, jm, he, -⟩ := snapVal_state nm st
  rw [he]


/-- Assembling the `FOut` record of `e :: rest` from one epoch's segment
(epoch-begin broadcast, training batches `Δt`, validation batches `Δv`,
epoch-end broadcast) and the record of the remaining epochs. -/
theorem FOut.build {Lt : Loader} {vl : Option Loader} {e : ℕ} {rest : List ℕ}
    {k k2 k' : ℕ} {st1 stY : RState} {Δt Δv Δr : Trace}
    (hLt_bb : countH .on_batch_begin Δt = Lt.batches.length)
    (hLt_be : countH .on_batch_end Δt = Lt.batches.length)
    (hLt_other : ∀ h, h ≠ Hook.on_batch_begin → h ≠ Hook.on_batch_end → countH h Δt = 0)
    (hLt_ep : ∀ x ∈ Δt, x.2.epoch = e)
    (hLv_bb : countH .on_batch_begin Δv = valLen vl)
    (hLv_be : countH .on_batch_end Δv = valLen vl)
    (hLv_other : ∀ h, h ≠ Hook.on_batch_begin → h ≠ Hook.on_batch_end → countH h Δv = 0)
    (hLv_ep : ∀ x ∈ Δv, x.2.epoch = e)
    (h1ep : st1.epoch = e) (hYep : stY.epoch = e)
    (hdt : Δt.length = 2 * Lt.batches.length) (hdv : Δv.length = 2 * valLen vl)
    (hk2 : k2 = k + 1 + 2 * Lt.batches.length + 2 * valLen vl)
    (F : FOut Lt vl rest (k2 + 1) Δr k') :
    FOut Lt vl (e :: rest) k
      ((.on_epoch_begin, st1) :: (Δt ++ Δv ++ ((.on_epoch_end, stY) :: Δr))) k' := by
  have hbb_ne : Hook.on_batch_begin ≠ Hook.on_epoch_begin := by intro h; cases h
  refine ⟨?_, ?_, ?_, ?_, ?_, ?_, ?_, ?_, ?_, ?_, ?_, ?_⟩
  · rw [countH_cons, countH_append, countH_append, countH_cons, F.cnt_eb,
      hLt_other _ (by intro h; cases h) (by intro h; cases h),
      hLv_other _ (by intro h; cases h) (by intro h; cases h)]
    simp
  · rw [countH_cons, countH_append, countH_append, countH_cons, F.cnt_ee,
      hLt_other _ (by intro h; cases h) (by intro h; cases h),
      hLv_other _ (by intro h; cases h) (by intro h; cases h)]
    simp
  · rw [countH_cons, countH_append, countH_append, countH_cons, F.cnt_tb,
      hLt_other _ (by intro h; cases h) (by intro h; cases h),
      hLv_other _ (by intro h; cases h) (by intro h; cases h)]
    simp
  · rw [countH_cons, countH_append, countH_append, countH_cons, F.cnt_te,
      hLt_other _ (by intro h; cases h) (by intro h; cases h),
      hLv_other _ (by intro h; cases h) (by intro h; cases h)]
    simp
  · rw [countH_cons, countH_append, countH_append, countH_cons, F.cnt_bb, hLt_bb, hLv_bb]
    simp
    ring
  · rw [countH_cons, countH_append, countH_append, countH_cons, F.cnt_be, hLt_be, hLv_be]
    simp
    ring
  · rw [epochsSeen_cons, epochsSeen_append, epochsSeen_append, epochsSeen_cons,
      epochsSeen_of_no_eb (hLt_other _ (by intro h; cases h) (by intro h; cases h)),
      epochsSeen_of_no_eb (hLv_other _ (by intro h; cases h) (by intro h; cases h)),
      F.seen]
    simp [h1ep]
  · intro x hx
    rcases List.mem_cons.1 hx with rfl | hx
    · simp [h1ep]
    rcases List.mem_append.1 hx with hx | hx
    · rw [List.mem_append] at hx
      rcases hx with hx | hx
      · rw [hLt_ep x hx]; exact List.mem_cons_self e rest
      · rw [hLv_ep x hx]; exact List.mem_cons_self e rest
    · rcases List.mem_cons.1 hx with rfl | hx
      · simp [hYep]
      · exact List.mem_cons_of_mem e (F.entries_ep x hx)
  · intro hnd e' he'
    have hnd_rest : rest.Nodup := (List.nodup_cons.1 hnd).2
    have hne : e ∉ rest := (List.nodup_cons.1 hnd).1
    rw [countHEp_cons, countHEp_append, countHEp_append, countHEp_cons]
    rcases List.mem_cons.1 he' with rfl | he'
    · rw [countHEp_eq_countH hLt_ep, countHEp_eq_countH hLv_ep, hLt_bb, hLv_bb,
        countHEp_eq_zero (fun x hx hc => hne (by rw [← hc]; exact F.entries_ep x hx))]
      simp
    · have hee' : e ≠ e' := fun hc => hne (hc ▸ he')
      rw [countHEp_eq_zero (fun x hx hc => hee' ((hLt_ep x hx).symm.trans hc)),
        countHEp_eq_zero (fun x hx hc => hee' ((hLv_ep x hx).symm.trans hc)),
        F.per_bb hnd_rest e' he']
      simp
  · intro hnd e' he'
    have hnd_rest : rest.Nodup := (List.nodup_cons.1 hnd).2
    have hne : e ∉ rest := (List.nodup_cons.1 hnd).1
    rw [countHEp_cons, countHEp_append, countHEp_append, countHEp_cons]
    rcases List.mem_cons.1 he' with rfl | he'
    · rw [countHEp_eq_countH hLt_ep, countHEp_eq_countH hLv_ep, hLt_be, hLv_be,
        countHEp_eq_zero (fun x hx hc => hne (by rw [← hc]; exact F.entries_ep x hx))]
      simp
    · have hee' : e ≠ e' := fun hc => hne (hc ▸ he')
      rw [countHEp_eq_zero (fun x hx hc => hee' ((hLt_ep x hx).symm.trans hc)),
        countHEp_eq_zero (fun x hx hc => hee' ((hLv_ep x hx).symm.trans hc)),
        F.per_be hnd_rest e' he']
      simp
  · have := F.dlen
    simp [this, hdt, hdv]
    ring
  · rw [F.k_eq, hk2]
    simp
    ring

theorem fitEpochs_ok {hs : ℕ → Option ℕ} {nm : ℕ} {verbose : Bool} {Lt : Loader}
    {steps : Option ℕ} {vl : Option Loader} {vs : Option ℕ} :
    ∀ (es : List ℕ) (st : RState) (tr : Trace) (k : ℕ) {tr' : Trace} {st' : RState} {k' : ℕ},
      Runner.fitEpochs hs nm verbose Lt steps vl vs es st tr k = (tr', .ok (st', k')) →
      ∃ Δ, tr' = tr ++ Δ ∧ FOut Lt vl es k Δ k' := by
  intro es
  induction es with
  | nil =>
    intro st tr k tr' st' k' hrun
    simp only [Runner.fitEpochs] at hrun
    obtain ⟨rfl, h2⟩ := Prod.mk.injEq .. ▸ hrun
    obtain ⟨rfl, rfl⟩ : st = st' ∧ k = k' := by cases h2; exact ⟨rfl, rfl⟩
    refine ⟨[], by simp, ?_⟩
    exact ⟨rfl, rfl, rfl, rfl, by simp [countH], by simp [countH], rfl,
      fun x hx => absurd hx (List.not_mem_nil x), fun _ x hx => absurd hx (List.not_mem_nil x),
      fun _ x hx => absurd hx (List.not_mem_nil x), by simp, by simp⟩
  | cons e rest ih =>
    intro st tr k tr' st' k' hrun
    simp only [Runner.fitEpochs] at hrun
    cases hk : hs k with
    | some c => rw [callHook, hk] at hrun; cases hrun
    | none =>
      rw [callHook, hk] at hrun
      simp only [] at hrun
      split at hrun
      next tr2 err heq => cases hrun
      next tr2 st3 k2 heq =>
        obtain ⟨hv, Δt, htr2, Et⟩ := run_one_epoch_ok heq
        have hep_t : ∀ x ∈ Δt, x.2.epoch = e := fun x hx => (Et.entries x hx).1
        have hst3ep : st3.epoch = e := Et.epoch
        have hk2 : k2 = (k + 1) + 2 * Lt.batches.length := Et.k_eq
        cases vl with
        | none =>
          simp only [] at hrun
          cases hk2h : hs k2 with
          | some c => rw [callHook, hk2h] at hrun; cases hrun
          | none =>
            rw [callHook, hk2h] at hrun
            simp only [] at hrun
            obtain ⟨Δr, htr', F⟩ := ih (snapTrain nm st3) _ (k2 + 1) hrun
            refine ⟨(.on_epoch_begin, { st with is_train := true, epoch := e }) ::
              (Δt ++ [] ++ ((.on_epoch_end, snapTrain nm st3) :: Δr)), ?_, ?_⟩
            · rw [htr', htr2]; simp
            · exact FOut.build Et.cnt_bb Et.cnt_be Et.cnt_other hep_t rfl rfl
                (fun _ _ _ => rfl) (fun x hx => absurd hx (List.not_mem_nil x)) rfl
                (by rw [snapTrain_epoch, hst3ep]) Et.dlen rfl
                (by simp only [valLen]; omega) F
        | some vloader =>
          simp only [] at hrun
          cases hev : Runner.evaluate hs nm verbose vloader vs (snapTrain nm st3) tr2 k2 with
          | mk tr2v outv =>
            rw [hev] at hrun
            cases outv with
            | error err => simp only [] at hrun; cases hrun
            | ok pv =>
              obtain ⟨st6, k3, rv⟩ := pv
              simp only [] at hrun
              obtain ⟨hv2, Δv, htr2v, Ev, hrv⟩ := evaluate_ok hev
              have hsnapep : (snapTrain nm st3).epoch = e := by
                rw [snapTrain_epoch, hst3ep]
              have hep_v : ∀ x ∈ Δv, x.2.epoch = e := by
                intro x hx
                have h1 := (Ev.entries x hx).1
                rw [h1]
                exact hsnapep
              have hk3 : k3 = k2 + 2 * vloader.batches.length := Ev.k_eq
              cases hk3h : hs k3 with
              | some c => rw [callHook, hk3h] at hrun; cases hrun
              | none =>
                rw [callHook, hk3h] at hrun
                simp only [] at hrun
                obtain ⟨Δr, htr', F⟩ := ih (snapVal nm st6) _ (k3 + 1) hrun
                refine ⟨(.on_epoch_begin, { st with is_train := true, epoch := e }) ::
                  (Δt ++ Δv ++ ((.on_epoch_end, snapVal nm st6) :: Δr)), ?_, ?_⟩
                · rw [htr', htr2v, htr2]; simp
                · refine FOut.build Et.cnt_bb Et.cnt_be Et.cnt_other hep_t
                    Ev.cnt_bb Ev.cnt_be Ev.cnt_other hep_v rfl ?_ Et.dlen Ev.dlen
                    (by simp only [valLen]; omega) F
                  rw [snapVal_epoch, Ev.epoch]
                  exact hsnapep

theorem fit_ok {hs : ℕ → Option ℕ} {nm : ℕ} {verbose : Bool} {st0 : RState} {Lt : Loader}
    {steps : Option ℕ} {vl : Option Loader} {vs : Option ℕ} {E s : ℕ}
    {tr : Trace} {st' : RState} {k' : ℕ}
    (h : Runner.fit hs nm verbose st0 Lt steps vl vs E s = (tr, .ok (st', k'))) :
    ∃ stA Δ stB, tr = (Hook.on_train_begin, stA) :: (Δ ++ [(Hook.on_train_end, stB)]) ∧
      FOut Lt vl (List.range' s (E - s)) 1 Δ (k' - 1) := by
  simp only [Runner.fit] at h
  cases hk : hs 0 with
  | some c => rw [callHook, hk] at h; cases h
  | none =>
    rw [callHook, hk] at h
    simp only [] at h
    split at h
    next a b => cases h
    next trX stX kX heq =>
      obtain ⟨Δ, htr, F⟩ := fitEpochs_ok (List.range' s (E - s)) _ _ 1 heq
      cases hk2 : hs kX with
      | some c => rw [callHook, hk2] at h; cases h
      | none =>
        rw [callHook, hk2] at h
        have htr2 : trX ++ [(Hook.on_train_end, stX)] = tr := congrArg Prod.fst h
        have hok : (Except.ok (stX, kX + 1) : Except Err (RState × ℕ)) = .ok (st', k') :=
          congrArg Prod.snd h
        have hk' : k' = kX + 1 := by cases hok; rfl
        refine ⟨{ st0 with num_epochs := E, batch_size := Lt.batch_size.getD 1 },
          Δ, stX, ?_, ?_⟩
        · rw [← htr2, htr]; simp
        · have hx : k' - 1 = kX := by omega
          rw [hx]
          exact F

/-! Claim C1. -/

/-- C1 counterexample: the claim says `fit(steps_per_epoch=2, epochs=1)`
on a 3-batch source emits `min(2,3) = 2` batch-begin broadcasts per
epoch.  The run completes normally and emits 3: nothing bounds the batch
loop to the step count — `ep_size` only feeds the progress display. -/
theorem fit_truncation_cex :
    (Runner.fitRun noFailHooks 0 false demoLoader (some 2) none none 1 0).2 =
      .ok (fitOut (Runner.fitRun noFailHooks 0 false demoLoader (some 2) none none 1 0)) ∧
    countH .on_batch_begin
      (Runner.fitRun noFailHooks 0 false demoLoader (some 2) none none 1 0).1 = 3 ∧
    countH .on_batch_end
      (Runner.fitRun noFailHooks 0 false demoLoader (some 2) none none 1 0).1 = 3 ∧
    (3 : ℕ) ≠ min 2 3 :=
  ⟨rfl, by decide, by decide, by decide⟩

/-- C1 amended: every `fit(train_source, steps_per_epoch=S, epochs=E)` run
that completes emits, per training epoch, exactly `L` batch-begin/end
pairs — the source's full natural length, regardless of `S`, since the
loop is not truncated to the effective epoch size — together with `E`
epoch-begin/end pairs and exactly one train-begin/train-end pair. -/
theorem fit_batch_counts {hs : ℕ → Option ℕ} {nm : ℕ} {verbose : Bool} {Lt : Loader}
    {steps : Option ℕ} {vs : Option ℕ} {E : ℕ} {tr : Trace} {st' : RState} {k' : ℕ}
    (h : Runner.fitRun hs nm verbose Lt steps none vs E 0 = (tr, .ok (st', k'))) :
    countH .on_batch_begin tr = E * Lt.batches.length ∧
    countH .on_batch_end tr = E * Lt.batches.length ∧
    (∀ e, e < E → countHEp .on_batch_begin e tr = Lt.batches.length ∧
      countHEp .on_batch_end e tr = Lt.batches.length) ∧
    countH .on_epoch_begin tr = E ∧ countH .on_epoch_end tr = E ∧
    countH .on_train_begin tr = 1 ∧ countH .on_train_end tr = 1 := by
  obtain ⟨stA, Δ, stB, htr, F⟩ := fit_ok h
  have hE : E - 0 = E := by omega
  rw [hE] at F
  have hlen : (List.range' 0 E).length = E := by simp
  have hnd : (List.range' 0 E).Nodup := List.nodup_range' 0 E
  have hLv : valLen (none : Option Loader) = 0 := rfl
  subst htr
  refine ⟨?_, ?_, ?_, ?_, ?_, ?_, ?_⟩
  · rw [countH_cons, countH_append, countH_cons, countH_nil, F.cnt_bb, hlen, hLv]
    simp
  · rw [countH_cons, countH_append, countH_cons, countH_nil, F.cnt_be, hlen, hLv]
    simp
  · intro e he
    have hmem : e ∈ List.range' 0 E := by
      rw [List.mem_range'_1]
      exact ⟨by omega, by omega⟩
    constructor
    · rw [countHEp_cons, countHEp_append, countHEp_cons, countHEp_nil,
        F.per_bb hnd e hmem, hLv]
      simp
    · rw [countHEp_cons, countHEp_append, countHEp_cons, countHEp_nil,
        F.per_be hnd e hmem, hLv]
      simp
  · rw [countH_cons, countH_append, countH_cons, countH_nil, F.cnt_eb, hlen]
    simp
  · rw [countH_cons, countH_append, countH_cons, countH_nil, F.cnt_ee, hlen]
    simp
  · rw [countH_cons, countH_append, countH_cons, countH_nil, F.cnt_tb]
    simp
  · rw [countH_cons, countH_append, countH_cons, countH_nil, F.cnt_te]
    simp

/-- C1 amended, witness: a completed 2-epoch verbose-off run on the
3-batch source emits 3 batch pairs in each epoch (6 in total), 2 epoch
pairs and one train pair. -/
theorem fit_batch_counts_witness :
    (Runner.fitRun noFailHooks 0 false demoLoader (some 2) none none 2 0).2 =
      .ok (fitOut (Runner.fitRun noFailHooks 0 false demoLoader (some 2) none none 2 0)) ∧
    countH .on_batch_begin
      (Runner.fitRun noFailHooks 0 false demoLoader (some 2) none none 2 0).1 =
      2 * demoLoader.batches.length ∧
    countHEp .on_batch_begin 1
      (Runner.fitRun noFailHooks 0 false demoLoader (some 2) none none 2 0).1 =
      demoLoader.batches.length ∧
    countH .on_epoch_begin
      (Runner.fitRun noFailHooks 0 false demoLoader (some 2) none none 2 0).1 = 2 ∧
    countH .on_train_begin
      (Runner.fitRun noFailHooks 0 false demoLoader (some 2) none none 2 0).1 = 1 := by
  have H := @fit_batch_counts noFailHooks 0 false demoLoader (some 2) none 2
    (Runner.fitRun noFailHooks 0 false demoLoader (some 2) none none 2 0).1
    (fitOut (Runner.fitRun noFailHooks 0 false demoLoader (some 2) none none 2 0)).1
    (fitOut (Runner.fitRun noFailHooks 0 false demoLoader (some 2) none none 2 0)).2 rfl
  exact ⟨rfl, H.1, (H.2.2.1 1 (by decide)).1, H.2.2.2.1, H.2.2.2.2.2.1⟩

/-! Claim C7. -/

/-- C7: on every completed `fit(epochs=E, start_epoch=s)` run with
`s < E`, the epoch indices observed by callbacks at the epoch-begin
broadcasts are exactly `s, s+1, ..., E-1` in that (strictly increasing)
order, `on_train_begin` opens the trace (broadcast once), and
`on_train_end` closes it (broadcast once). -/
theorem fit_epoch_indices {hs : ℕ → Option ℕ} {nm : ℕ} {verbose : Bool} {Lt : Loader}
    {steps : Option ℕ} {vl : Option Loader} {vs : Option ℕ} {E s : ℕ}
    {tr : Trace} {st' : RState} {k' : ℕ}
    (h : Runner.fitRun hs nm verbose Lt steps vl vs E s = (tr, .ok (st', k')))
    (hse : s < E) :
    epochsSeen tr = List.range' s (E - s) ∧
    countH .on_epoch_begin tr = E - s ∧
    countH .on_train_begin tr = 1 ∧ countH .on_train_end tr = 1 ∧
    (tr.head?).map Prod.fst = some .on_train_begin ∧
    (tr.getLast?).map Prod.fst = some .on_train_end := by
  obtain ⟨stA, Δ, stB, htr, F⟩ := fit_ok h
  subst htr
  refine ⟨?_, ?_, ?_, ?_, rfl, ?_⟩
  · rw [epochsSeen_cons, epochsSeen_append, epochsSeen_cons, epochsSeen_nil, F.seen]
    simp
  · rw [countH_cons, countH_append, countH_cons, countH_nil, F.cnt_eb]
    simp
  · rw [countH_cons, countH_append, countH_cons, countH_nil, F.cnt_tb]
    simp
  · rw [countH_cons, countH_append, countH_cons, countH_nil, F.cnt_te]
    simp
  · show (((Hook.on_train_begin, stA) :: Δ) ++
      [(Hook.on_train_end, stB)]).getLast?.map Prod.fst = some Hook.on_train_end
    rw [List.getLast?_append]
    rfl

/-- C7 witness: the completed run `fit(epochs=4, start_epoch=2)` on the
3-batch source observes exactly the epoch indices `[2, 3]`, opened by one
`on_train_begin` and closed by one `on_train_end`. -/
theorem fit_epoch_indices_witness :
    (Runner.fitRun noFailHooks 0 false demoLoader none none none 4 2).2 =
      .ok (fitOut (Runner.fitRun noFailHooks 0 false demoLoader none none none 4 2)) ∧
    epochsSeen (Runner.fitRun noFailHooks 0 false demoLoader none none none 4 2).1 =
      List.range' 2 (4 - 2) ∧
    countH .on_train_begin
      (Runner.fitRun noFailHooks 0 false demoLoader none none none 4 2).1 = 1 ∧
    ((Runner.fitRun noFailHooks 0 false demoLoader none none none 4 2).1.getLast?).map
      Prod.fst = some .on_train_end := by
  have H := @fit_epoch_indices noFailHooks 0 false demoLoader none none none 4 2
    (Runner.fitRun noFailHooks 0 false demoLoader none none none 4 2).1
    (fitOut (Runner.fitRun noFailHooks 0 false demoLoader none none none 4 2)).1
    (fitOut (Runner.fitRun noFailHooks 0 false demoLoader none none none 4 2)).2 rfl
    (by decide)
  exact ⟨rfl, H.1, H.2.2.1, H.2.2.2.2.2⟩

/-! Snapshot-invariant transport along the run. -/

theorem Seg.pre {nm : ℕ} {a b c : RState} {Δ : Trace} (hf : SnapFrame nm a b)
    (hseg : Seg nm b c Δ) : Seg nm a c Δ :=
  ⟨hf.chain hseg.1, fun e he => ⟨hf.chain (hseg.2.1 e he).1, (hseg.2.1 e he).2⟩, hseg.2.2⟩

theorem mk0_inv (nm : ℕ) : SnapInv nm (RState.mk0 nm) := by
  refine ⟨by simp [RState.mk0], ?_, ?_, ?_, ?_⟩
  · intro j hj; cases hj
  · intro j hj; cases hj
  · intro j hj; cases hj
  · intro j hj; cases hj

theorem snapTrain_inv {nm : ℕ} {st : RState} (h : SnapInv nm st) :
    SnapInv nm (snapTrain nm st) := by
  obtain ⟨hp, jl, jm, he, hlen, hjl1, hjl2, hjm, hf⟩ := snapTrain_state nm st
  obtain ⟨hc, t1, t2, t3, t4⟩ := h
  rw [he]
  refine ⟨?_, ?_, ?_, ?_, ?_⟩
  · show nm + 1 ≤ hp.length; omega
  · intro j hj
    have hx : jl = j := by cases hj; rfl
    subst hx
    exact ⟨by omega, by show jl < hp.length; omega⟩
  · intro j hj
    obtain ⟨h1, h2⟩ := hjm j hj
    exact ⟨by omega, h2⟩
  · intro j hj
    obtain ⟨h1, h2⟩ := t3 j hj
    exact ⟨h1, by show j < hp.length; omega⟩
  · intro j hj
    obtain ⟨h1, h2⟩ := t4 j hj
    exact ⟨h1, by show j < hp.length; omega⟩

theorem snapVal_inv {nm : ℕ} {st : RState} (h : SnapInv nm st) :
    SnapInv nm (snapVal nm st) := by
  obtain ⟨hp, jl, jm, he, hlen, hjl1, hjl2, hjm, hf⟩ := snapVal_state nm st
  obtain ⟨hc, t1, t2, t3, t4⟩ := h
  rw [he]
  refine ⟨?_, ?_, ?_, ?_, ?_⟩
  · show nm + 1 ≤ hp.length; omega
  · intro j hj
    obtain ⟨h1, h2⟩ := t1 j hj
    exact ⟨h1, by show j < hp.length; omega⟩
  · intro j hj
    obtain ⟨h1, h2⟩ := t2 j hj
    exact ⟨h1, by show j < hp.length; omega⟩
  · intro j hj
    have hx : jl = j := by cases hj; rfl
    subst hx
    exact ⟨by omega, by show jl < hp.length; omega⟩
  · intro j hj
    obtain ⟨h1, h2⟩ := hjm j hj
    exact ⟨by omega, h2⟩

theorem snapTrain_frame (nm : ℕ) (st : RState) : SnapFrame nm st (snapTrain nm st) := by
  obtain ⟨hp, jl, jm, he, hlen, hjl1, hjl2, hjm, hf⟩ := snapTrain_state nm st
  exact hf

theorem snapVal_frame (nm : ℕ) (st : RState) : SnapFrame nm st (snapVal nm st) := by
  obtain ⟨hp, jl, jm, he, hlen, hjl1, hjl2, hjm, hf⟩ := snapVal_state nm st
  exact hf

theorem run_one_epoch_seginv {hs : ℕ → Option ℕ} {nm : ℕ} {verbose : Bool} {loader : Loader}
    {steps : Option ℕ} {st : RState} {tr : Trace} {k : ℕ} {tr' : Trace} {st' : RState} {k' : ℕ}
    (h : Runner._run_one_epoch hs nm verbose loader steps st tr k = (tr', .ok (st', k'))) :
    ∃ Δ, tr' = tr ++ Δ ∧ Seg nm st st' Δ ∧
      (SnapInv nm st → SnapInv nm st' ∧ ∀ x ∈ Δ, SnapInv nm x.2) := by
  obtain ⟨hv, Δ1, htr1, E⟩ := run_one_epoch_ok h
  obtain ⟨Δ2, htr2, hseg⟩ := run_one_epoch_seg h
  have hΔ : Δ1 = Δ2 := List.append_cancel_left (htr1 ▸ htr2)
  subst hΔ
  refine ⟨Δ1, htr1, hseg, ?_⟩
  intro hinv
  constructor
  · exact hinv.mono (le_of_eq E.heap_len.symm) E.snaps.1 E.snaps.2.1 E.snaps.2.2.1 E.snaps.2.2.2
  · intro x hx
    obtain ⟨-, -, -, -, -, hs1, hs2, hs3, hs4⟩ := E.entries x hx
    exact hinv.mono (hseg.2.1 x hx).1.1 hs1 hs2 hs3 hs4

theorem evaluate_seginv {hs : ℕ → Option ℕ} {nm : ℕ} {verbose : Bool} {loader : Loader}
    {steps : Option ℕ} {st : RState} {tr : Trace} {k : ℕ} {tr' : Trace} {st' : RState}
    {k' : ℕ} {rv : ℚ × List ℚ}
    (h : Runner.evaluate hs nm verbose loader steps st tr k = (tr', .ok (st', k', rv))) :
    ∃ Δ, tr' = tr ++ Δ ∧ Seg nm st st' Δ ∧
      (SnapInv nm st → SnapInv nm st' ∧ ∀ x ∈ Δ, SnapInv nm x.2) := by
  simp only [Runner.evaluate] at h
  cases hre : Runner._run_one_epoch hs nm verbose loader steps
      { st with is_train := false, model_train_mode := false } tr k with
  | mk tr2 out =>
    rw [hre] at h
    cases out with
    | error e0 => cases h
    | ok p =>
      obtain ⟨s2, k2⟩ := p
      cases h
      obtain ⟨Δ, htr, hseg, hinvt⟩ := run_one_epoch_seginv hre
      have hf : SnapFrame nm st { st with is_train := false, model_train_mode := false } :=
        SnapFrame.of_heap_eq rfl
      refine ⟨Δ, htr, Seg.pre hf hseg, ?_⟩
      intro hinv
      have hinv2 : SnapInv nm { st with is_train := false, model_train_mode := false } :=
        hinv.mono le_rfl rfl rfl rfl rfl
      exact hinvt hinv2

theorem fitEpochs_seg {hs : ℕ → Option ℕ} {nm : ℕ} {verbose : Bool} {Lt : Loader}
    {steps : Option ℕ} {vl : Option Loader} {vs : Option ℕ} :
    ∀ (es : List ℕ) (st : RState) (tr : Trace) (k : ℕ) {tr' : Trace} {st' : RState} {k' : ℕ},
      Runner.fitEpochs hs nm verbose Lt steps vl vs es st tr k = (tr', .ok (st', k')) →
      ∃ Δ, tr' = tr ++ Δ ∧ Seg nm st st' Δ ∧
        (SnapInv nm st → SnapInv nm st' ∧ ∀ x ∈ Δ, SnapInv nm x.2) := by
  intro es
  induction es with
  | nil =>
    intro st tr k tr' st' k' hrun
    simp only [Runner.fitEpochs] at hrun
    obtain ⟨rfl, h2⟩ := Prod.mk.injEq .. ▸ hrun
    obtain ⟨rfl, rfl⟩ : st = st' ∧ k = k' := by cases h2; exact ⟨rfl, rfl⟩
    exact ⟨[], by simp, Seg.nil (SnapFrame.here nm st),
      fun hinv => ⟨hinv, fun x hx => absurd hx (List.not_mem_nil x)⟩⟩
  | cons e rest ih =>
    intro st tr k tr' st' k' hrun
    simp only [Runner.fitEpochs] at hrun
    cases hk : hs k with
    | some c => rw [callHook, hk] at hrun; cases hrun
    | none =>
      rw [callHook, hk] at hrun
      simp only [] at hrun
      split at hrun
      next tr2 err heq => cases hrun
      next tr2 st3 k2 heq =>
        obtain ⟨Δt, htr2, hsegt, hinvt⟩ := run_one_epoch_seginv heq
        have hf1 : SnapFrame nm st { st with is_train := true, epoch := e } :=
          SnapFrame.of_heap_eq rfl
        have hf2 : SnapFrame nm { st with is_train := true, epoch := e }
            { { st with is_train := true, epoch := e } with model_train_mode := true } :=
          SnapFrame.of_heap_eq rfl
        have hinv1 : SnapInv nm st → SnapInv nm
            { { st with is_train := true, epoch := e } with model_train_mode := true } :=
          fun hinv => hinv.mono le_rfl rfl rfl rfl rfl
        cases vl with
        | none =>
          simp only [] at hrun
          cases hk2h : hs k2 with
          | some c => rw [callHook, hk2h] at hrun; cases hrun
          | none =>
            rw [callHook, hk2h] at hrun
            simp only [] at hrun
            obtain ⟨Δr, htr', hsegr, hinvr⟩ := ih (snapTrain nm st3) _ (k2 + 1) hrun
            refine ⟨(.on_epoch_begin, { st with is_train := true, epoch := e }) ::
              (Δt ++ ((.on_epoch_end, snapTrain nm st3) :: Δr)), ?_, ?_, ?_⟩
            · rw [htr', htr2]; simp
            · refine Seg.cons _ hf1 ?_
              refine (Seg.pre hf2 hsegt).glue ?_
              exact Seg.cons _ (snapTrain_frame nm st3) hsegr
            · intro hinv
              obtain ⟨hinv3, hinvΔt⟩ := hinvt (hinv1 hinv)
              have hinvY : SnapInv nm (snapTrain nm st3) := snapTrain_inv hinv3
              obtain ⟨hinv', hinvΔr⟩ := hinvr hinvY
              refine ⟨hinv', ?_⟩
              intro x hx
              rcases List.mem_cons.1 hx with rfl | hx
              · exact hinv.mono le_rfl rfl rfl rfl rfl
              rcases List.mem_append.1 hx with hx | hx
              · exact hinvΔt x hx
              rcases List.mem_cons.1 hx with rfl | hx
              · exact hinvY
              · exact hinvΔr x hx
        | some vloader =>
          simp only [] at hrun
          cases hev : Runner.evaluate hs nm verbose vloader vs (snapTrain nm st3) tr2 k2 with
          | mk tr2v outv =>
            rw [hev] at hrun
            cases outv with
            | error err => simp only [] at hrun; cases hrun
            | ok pv =>
              obtain ⟨st6, k3, rv⟩ := pv
              simp only [] at hrun
              obtain ⟨Δv, htr2v, hsegv, hinvv⟩ := evaluate_seginv hev
              cases hk3h : hs k3 with
              | some c => rw [callHook, hk3h] at hrun; cases hrun
              | none =>
                rw [callHook, hk3h] at hrun
                simp only [] at hrun
                obtain ⟨Δr, htr', hsegr, hinvr⟩ := ih (snapVal nm st6) _ (k3 + 1) hrun
                refine ⟨(.on_epoch_begin, { st with is_train := true, epoch := e }) ::
                  (Δt ++ Δv ++ ((.on_epoch_end, snapVal nm st6) :: Δr)), ?_, ?_, ?_⟩
                · rw [htr', htr2v, htr2]; simp
                · refine Seg.cons _ hf1 ?_
                  have hseg1 : Seg nm { { st with is_train := true, epoch := e } with
                      model_train_mode := true } st3 Δt := Seg.pre hf2 hsegt
                  have hseg2 : Seg nm st3 st6 Δv := Seg.pre (snapTrain_frame nm st3) hsegv
                  have hseg3 : Seg nm st6 st' ((Hook.on_epoch_end, snapVal nm st6) :: Δr) :=
                    Seg.cons _ (snapVal_frame nm st6) hsegr
                  have := (hseg1.glue hseg2).glue hseg3
                  simpa using this
                · intro hinv
                  obtain ⟨hinv3, hinvΔt⟩ := hinvt (hinv1 hinv)
                  obtain ⟨hinv6, hinvΔv⟩ := hinvv (snapTrain_inv hinv3)
                  have hinvY : SnapInv nm (snapVal nm st6) := snapVal_inv hinv6
                  obtain ⟨hinv', hinvΔr⟩ := hinvr hinvY
                  refine ⟨hinv', ?_⟩
                  intro x hx
                  rcases List.mem_cons.1 hx with rfl | hx
                  · exact hinv.mono le_rfl rfl rfl rfl rfl
                  rcases List.mem_append.1 hx with hx | hx
                  · rcases List.mem_append.1 hx with hx | hx
                    · exact hinvΔt x hx
                    · exact hinvΔv x hx
                  rcases List.mem_cons.1 hx with rfl | hx
                  · exact hinvY
                  · exact hinvΔr x hx

theorem fit_seg {hs : ℕ → Option ℕ} {nm : ℕ} {verbose : Bool} {Lt : Loader}
    {steps : Option ℕ} {vl : Option Loader} {vs : Option ℕ} {E s : ℕ}
    {tr : Trace} {stF : RState} {kF : ℕ}
    (h : Runner.fitRun hs nm verbose Lt steps vl vs E s = (tr, .ok (stF, kF))) :
    Seg nm (RState.mk0 nm) stF tr ∧ ∀ x ∈ tr, SnapInv nm x.2 := by
  simp only [Runner.fitRun, Runner.fit] at h
  cases hk : hs 0 with
  | some c => rw [callHook, hk] at h; cases h
  | none =>
    rw [callHook, hk] at h
    simp only [] at h
    split at h
    next a b => cases h
    next trX stX kX heq =>
      obtain ⟨Δ, htr, hseg, hinvs⟩ := fitEpochs_seg (List.range' s (E - s)) _ _ 1 heq
      cases hk2 : hs kX with
      | some c => rw [callHook, hk2] at h; cases h
      | none =>
        rw [callHook, hk2] at h
        have htr2 : trX ++ [(Hook.on_train_end, stX)] = tr := congrArg Prod.fst h
        have hok : (Except.ok (stX, kX + 1) : Except Err (RState × ℕ)) = .ok (stF, kF) :=
          congrArg Prod.snd h
        have hstF : stX = stF := by cases hok; rfl
        subst hstF
        have hf0 : SnapFrame nm (RState.mk0 nm)
            { RState.mk0 nm with num_epochs := E, batch_size := Lt.batch_size.getD 1 } :=
          SnapFrame.of_heap_eq rfl
        have hinv0 : SnapInv nm
            { RState.mk0 nm with num_epochs := E, batch_size := Lt.batch_size.getD 1 } :=
          (mk0_inv nm).mono le_rfl rfl rfl rfl rfl
        obtain ⟨hinvX, hinvΔ⟩ := hinvs hinv0
        have hsegFull : Seg nm (RState.mk0 nm) stX
            ((Hook.on_train_begin, { RState.mk0 nm with num_epochs := E, batch_size := Lt.batch_size.getD 1 }) :: (Δ ++ [(Hook.on_train_end, stX)])) := by
          refine Seg.cons _ hf0 ?_
          exact hseg.glue (Seg.single _ (SnapFrame.here nm stX))
        constructor
        · rw [← htr2, htr]
          simpa using hsegFull
        · intro x hx
          rw [← htr2, htr] at hx
          simp only [List.append_assoc, List.nil_append, List.cons_append,
            List.mem_append, List.mem_cons, List.mem_singleton] at hx
          rcases hx with hx | hx | hx
          · rw [show x = (Hook.on_train_begin, { RState.mk0 nm with num_epochs := E, batch_size := Lt.batch_size.getD 1 }) from hx]
            exact hinv0
          · exact hinvΔ x hx
          · rw [show x = (Hook.on_train_end, stX) from hx.resolve_right
              (fun hc => absurd hc (List.not_mem_nil x))]
            exact hinvX

/-! Claim C6. -/

/-- C6: the per-epoch snapshots are fresh copies, never aliases of the
live meters.  On any completed `fit` run, pick any `on_epoch_end`
broadcast and any heap cell referenced by the snapshot fields the
callbacks observe there (`train_loss`/`train_metrics`, and
`val_loss`/`val_metrics` when validation ran): every later broadcast and
the final context read the same meter value from that cell — the meter
resets and updates of later epochs and validation passes never write to
a snapshot cell. -/
theorem snapshot_cells_frozen {hs : ℕ → Option ℕ} {nm : ℕ} {verbose : Bool} {Lt : Loader}
    {steps : Option ℕ} {vl : Option Loader} {vs : Option ℕ} {E s : ℕ}
    {tr : Trace} {stF : RState} {kF : ℕ}
    (h : Runner.fitRun hs nm verbose Lt steps vl vs E s = (tr, .ok (stF, kF)))
    {t1 t2 : Trace} {sE : RState}
    (hsplit : tr = t1 ++ (Hook.on_epoch_end, sE) :: t2) :
    ∀ j, (sE.train_loss = some j ∨ j ∈ sE.train_metrics ∨
          sE.val_loss = some j ∨ j ∈ sE.val_metrics) →
      (∀ x ∈ t2, x.2.mget j = sE.mget j) ∧ stF.mget j = sE.mget j := by
  obtain ⟨hseg, hinv⟩ := fit_seg h
  have hmem : (Hook.on_epoch_end, sE) ∈ tr := by
    rw [hsplit]
    exact List.mem_append.2 (Or.inr (List.mem_cons_self _ _))
  have hinvE : SnapInv nm sE := hinv (Hook.on_epoch_end, sE) hmem
  intro j hj
  have hidx : SnapIdx nm sE j := by
    obtain ⟨-, i1, i2, i3, i4⟩ := hinvE
    rcases hj with hj | hj | hj | hj
    · exact i1 j hj
    · exact i2 j hj
    · exact i3 j hj
    · exact i4 j hj
  constructor
  · intro x hx
    have hpw := hseg.2.2
    rw [hsplit] at hpw
    have h2 := (List.pairwise_append.1 hpw).2.1
    have h3 := (List.pairwise_cons.1 h2).1 x hx
    exact h3.2 j hidx.1 hidx.2
  · have hfr : SnapFrame nm sE stF := (hseg.2.1 (Hook.on_epoch_end, sE) hmem).2
    exact hfr.2 j hidx.1 hidx.2

/-- A concrete completed two-epoch training run (3-batch source, no
metrics, verbose off). -/
def c6run : Trace × Except Err (RState × ℕ) :=
  Runner.fitRun noFailHooks 0 false demoLoader none none none 2 0

/-- The first `on_epoch_end` broadcast of that run (trace index 8: one
train-begin, one epoch-begin, three batch pairs precede it). -/
def c6entry : Hook × RState := c6run.1.getD 8 (Hook.on_train_begin, RState.mk0 0)

/-- C6 witness: in the concrete two-epoch run, the `train_loss` snapshot
cell (cell 1) observed at epoch 0's `on_epoch_end` reads the same value
at every later broadcast — across epoch 1's meter resets and updates —
and in the final context. -/
theorem snapshot_cells_frozen_witness :
    c6run.2 = .ok (fitOut c6run) ∧
    c6entry.2.train_loss = some 1 ∧
    (∀ x ∈ c6run.1.drop 9, x.2.mget 1 = c6entry.2.mget 1) ∧
    (fitOut c6run).1.mget 1 = c6entry.2.mget 1 := by
  have H := @snapshot_cells_frozen noFailHooks 0 false demoLoader none none none 2 0
    c6run.1 (fitOut c6run).1 (fitOut c6run).2 rfl
    (c6run.1.take 8) (c6run.1.drop 9) c6entry.2 rfl 1 (Or.inl rfl)
  exact ⟨rfl, rfl, H.1, H.2⟩

theorem countH_cons_ne {h : Hook} {x : Hook × RState} (hne : x.1 ≠ h) (tr : Trace) :
    countH h (x :: tr) = countH h tr := by
  rw [countH_cons]
  simp [hne]

theorem fitEpochs_err {hs : ℕ → Option ℕ} {nm : ℕ} {verbose : Bool} {Lt : Loader}
    {steps : Option ℕ} {vl : Option Loader} {vs : Option ℕ} :
    ∀ (es : List ℕ) (st : RState) (tr : Trace) (k : ℕ) {tr' : Trace} {e : Err},
      Runner.fitEpochs hs nm verbose Lt steps vl vs es st tr k = (tr', .error e) →
      ∃ Δ, tr' = tr ++ Δ ∧
        ((∃ c, e = .hookExc c ∧ (tr.length = k → hs tr'.length = some c)) ∨
         (∃ c, e = .stepExc c ∧
           ((∃ x ∈ Lt.batches, x.res = .exc c) ∨
            (∃ vloader, vl = some vloader ∧ ∃ x ∈ vloader.batches, x.res = .exc c)) ∧
           countH .on_epoch_end Δ + 1 = countH .on_epoch_begin Δ ∧
           countH .on_batch_end Δ + 1 = countH .on_batch_begin Δ ∧
           countH .on_train_end Δ = 0) ∨
         (e = .lenTypeError ∧
           (Lt.hasLen = false ∨ ∃ vloader, vl = some vloader ∧ vloader.hasLen = false)) ∨
         (e = .hasattrTypeError ∧ verbose = true)) := by
  intro es
  induction es with
  | nil => intro st tr k tr' e hrun; simp only [Runner.fitEpochs] at hrun; cases hrun
  | cons ep rest ih =>
    intro st tr k tr' e hrun
    simp only [Runner.fitEpochs] at hrun
    cases hk : hs k with
    | some c =>
      rw [callHook, hk] at hrun
      have htrX : tr = tr' := congrArg Prod.fst hrun
      have heX : (Except.error (Err.hookExc c) : Except Err (RState × ℕ)) = .error e :=
        congrArg Prod.snd hrun
      have he : e = .hookExc c := by cases heX; rfl
      subst htrX
      exact ⟨[], by simp, Or.inl ⟨c, he, fun htr => by rw [htr]; exact hk⟩⟩
    | none =>
      rw [callHook, hk] at hrun
      simp only [] at hrun
      split at hrun
      next tr2 err heq =>
        have htrX : tr2 = tr' := congrArg Prod.fst hrun
        have heX : (Except.error err : Except Err (RState × ℕ)) = .error e :=
          congrArg Prod.snd hrun
        have he : e = err := by cases heX; rfl
        subst he
        subst htrX
        obtain ⟨Δt, htr2, hentt, hcntt, hclt⟩ := run_one_epoch_err heq
        have cet := hcntt .on_epoch_end (by intro h; cases h) (by intro h; cases h)
        have ceb := hcntt .on_epoch_begin (by intro h; cases h) (by intro h; cases h)
        have cte := hcntt .on_train_end (by intro h; cases h) (by intro h; cases h)
        refine ⟨(.on_epoch_begin, { st with is_train := true, epoch := ep }) :: Δt,
          by rw [htr2]; simp, ?_⟩
        rcases hclt with ⟨he1, hΔ, hlen, -⟩ | ⟨he1, hΔ, hv⟩ | ⟨c, he1, himp⟩ | ⟨c, he1, hbat, hrel⟩
        · exact Or.inr (Or.inr (Or.inl ⟨he1, Or.inl hlen⟩))
        · exact Or.inr (Or.inr (Or.inr ⟨he1, hv⟩))
        · refine Or.inl ⟨c, he1, fun htr => himp ?_⟩
          simp [htr]
        · refine Or.inr (Or.inl ⟨c, he1, Or.inl hbat, ?_, ?_, ?_⟩)
          · simp [countH_cons, cet, ceb] <;> omega
          · simp [countH_cons] <;> omega
          · simp [countH_cons, cte] <;> omega
      next tr2 st3 k2 heq =>
        obtain ⟨hv, Δt, htr2, Et⟩ := run_one_epoch_ok heq
        have cet := Et.cnt_other .on_epoch_end (by intro h; cases h) (by intro h; cases h)
        have ceb := Et.cnt_other .on_epoch_begin (by intro h; cases h) (by intro h; cases h)
        have cte := Et.cnt_other .on_train_end (by intro h; cases h) (by intro h; cases h)
        have hke := Et.k_eq
        have hlen2 : tr2.length = tr.length + 1 + 2 * Lt.batches.length := by
          rw [htr2]
          simp [Et.dlen]
          ring
        cases vl with
        | none =>
          simp only [] at hrun
          cases hk2h : hs k2 with
          | some c =>
            rw [callHook, hk2h] at hrun
            have htrX : tr2 = tr' := congrArg Prod.fst hrun
            have heX : (Except.error (Err.hookExc c) : Except Err (RState × ℕ)) = .error e :=
              congrArg Prod.snd hrun
            have he : e = .hookExc c := by cases heX; rfl
            subst htrX
            refine ⟨(.on_epoch_begin, { st with is_train := true, epoch := ep }) :: Δt,
              by rw [htr2]; simp, ?_⟩
            refine Or.inl ⟨c, he, fun htr => ?_⟩
            have hx : tr2.length = k2 := by
              rw [hlen2, htr]
              omega
            rw [hx]
            exact hk2h
          | none =>
            rw [callHook, hk2h] at hrun
            simp only [] at hrun
            obtain ⟨Δr, htr', hcl⟩ := ih (snapTrain nm st3) _ (k2 + 1) hrun
            refine ⟨(.on_epoch_begin, { st with is_train := true, epoch := ep }) ::
              (Δt ++ ((.on_epoch_end, snapTrain nm st3) :: Δr)), by rw [htr', htr2]; simp, ?_⟩
            rcases hcl with ⟨c, he1, himp⟩ | ⟨c, he1, hbat, h1, h2, h3⟩ | hrest | hrest
            · refine Or.inl ⟨c, he1, fun htr => himp ?_⟩
              simp only [List.length_append, List.length_cons, List.length_nil, hlen2, htr]
              omega
            · refine Or.inr (Or.inl ⟨c, he1, hbat, ?_, ?_, ?_⟩)
              · simp [countH_cons, countH_append, cet, ceb] <;> omega
              · simp [countH_cons, countH_append, Et.cnt_bb, Et.cnt_be] <;> omega
              · simp [countH_cons, countH_append, cte] <;> omega
            · exact Or.inr (Or.inr (Or.inl hrest))
            · exact Or.inr (Or.inr (Or.inr hrest))
        | some vloader =>
          simp only [] at hrun
          cases hev : Runner.evaluate hs nm verbose vloader vs (snapTrain nm st3) tr2 k2 with
          | mk tr2v outv =>
            rw [hev] at hrun
            cases outv with
            | error errv =>
              simp only [] at hrun
              have htrX : tr2v = tr' := congrArg Prod.fst hrun
              have heX : (Except.error errv : Except Err (RState × ℕ)) = .error e :=
                congrArg Prod.snd hrun
              have he : e = errv := by cases heX; rfl
              subst he
              subst htrX
              obtain ⟨Δv, htr2v, hentv, hcntv, hclv⟩ := evaluate_err hev
              have vet := hcntv .on_epoch_end (by intro h; cases h) (by intro h; cases h)
              have veb := hcntv .on_epoch_begin (by intro h; cases h) (by intro h; cases h)
              have vte := hcntv .on_train_end (by intro h; cases h) (by intro h; cases h)
              refine ⟨(.on_epoch_begin, { st with is_train := true, epoch := ep }) ::
                (Δt ++ Δv), by rw [htr2v, htr2]; simp, ?_⟩
              rcases hclv with ⟨he1, hΔ, hlenv, -⟩ | ⟨he1, hΔ, hvv⟩ | ⟨c, he1, himp⟩ |
                ⟨c, he1, hbat, hrel⟩
              · exact Or.inr (Or.inr (Or.inl ⟨he1, Or.inr ⟨vloader, rfl, hlenv⟩⟩))
              · exact Or.inr (Or.inr (Or.inr ⟨he1, hvv⟩))
              · refine Or.inl ⟨c, he1, fun htr => himp ?_⟩
                rw [hlen2, htr]
                omega
              · refine Or.inr (Or.inl ⟨c, he1, Or.inr ⟨vloader, rfl, hbat⟩, ?_, ?_, ?_⟩)
                · simp [countH_cons, countH_append, cet, ceb, vet, veb] <;> omega
                · simp [countH_cons, countH_append, Et.cnt_bb, Et.cnt_be] <;> omega
                · simp [countH_cons, countH_append, cte, vte] <;> omega
            | ok pv =>
              obtain ⟨st6, k3, rv⟩ := pv
              simp only [] at hrun
              obtain ⟨hv2, Δv, htr2v, Ev, hrv⟩ := evaluate_ok hev
              have vet := Ev.cnt_other .on_epoch_end (by intro h; cases h) (by intro h; cases h)
              have veb := Ev.cnt_other .on_epoch_begin (by intro h; cases h) (by intro h; cases h)
              have vte := Ev.cnt_other .on_train_end (by intro h; cases h) (by intro h; cases h)
              have hkev := Ev.k_eq
              have hlen2v : tr2v.length =
                  tr.length + 1 + 2 * Lt.batches.length + 2 * vloader.batches.length := by
                rw [htr2v, List.length_append, hlen2, Ev.dlen]
              cases hk3h : hs k3 with
              | some c =>
                rw [callHook, hk3h] at hrun
                have htrX : tr2v = tr' := congrArg Prod.fst hrun
                have heX : (Except.error (Err.hookExc c) : Except Err (RState × ℕ)) =
                    .error e := congrArg Prod.snd hrun
                have he : e = .hookExc c := by cases heX; rfl
                subst htrX
                refine ⟨(.on_epoch_begin, { st with is_train := true, epoch := ep }) ::
                  (Δt ++ Δv), by rw [htr2v, htr2]; simp, ?_⟩
                refine Or.inl ⟨c, he, fun htr => ?_⟩
                have hx : tr2v.length = k3 := by
                  rw [hlen2v, htr]
                  omega
                rw [hx]
                exact hk3h
              | none =>
                rw [callHook, hk3h] at hrun
                simp only [] at hrun
                obtain ⟨Δr, htr', hcl⟩ := ih (snapVal nm st6) _ (k3 + 1) hrun
                refine ⟨(.on_epoch_begin, { st with is_train := true, epoch := ep }) ::
                  (Δt ++ Δv ++ ((.on_epoch_end, snapVal nm st6) :: Δr)),
                  by rw [htr', htr2v, htr2]; simp, ?_⟩
                rcases hcl with ⟨c, he1, himp⟩ | ⟨c, he1, hbat, h1, h2, h3⟩ | hrest | hrest
                · refine Or.inl ⟨c, he1, fun htr => himp ?_⟩
                  simp only [List.length_append, List.length_cons, List.length_nil, hlen2v, htr]
                  omega
                · refine Or.inr (Or.inl ⟨c, he1, hbat, ?_, ?_, ?_⟩)
                  · simp [countH_cons, countH_append, cet, ceb, vet, veb] <;> omega
                  · simp [countH_cons, countH_append, Et.cnt_bb, Et.cnt_be,
                      Ev.cnt_bb, Ev.cnt_be] <;> omega
                  · simp [countH_cons, countH_append, cte, vte] <;> omega
                · exact Or.inr (Or.inr (Or.inl hrest))
                · exact Or.inr (Or.inr (Or.inr hrest))

theorem fit_err {hs : ℕ → Option ℕ} {nm : ℕ} {verbose : Bool} {st0 : RState} {Lt : Loader}
    {steps : Option ℕ} {vl : Option Loader} {vs : Option ℕ} {E s : ℕ}
    {tr' : Trace} {e : Err}
    (h : Runner.fit hs nm verbose st0 Lt steps vl vs E s = (tr', .error e)) :
    (∃ c, e = .hookExc c ∧ hs tr'.length = some c) ∨
    (∃ c, e = .stepExc c ∧
      ((∃ x ∈ Lt.batches, x.res = .exc c) ∨
       (∃ vloader, vl = some vloader ∧ ∃ x ∈ vloader.batches, x.res = .exc c)) ∧
      countH .on_epoch_end tr' + 1 = countH .on_epoch_begin tr' ∧
      countH .on_batch_end tr' + 1 = countH .on_batch_begin tr' ∧
      countH .on_train_end tr' = 0) ∨
    (e = .lenTypeError ∧
      (Lt.hasLen = false ∨ ∃ vloader, vl = some vloader ∧ vloader.hasLen = false)) ∨
    (e = .hasattrTypeError ∧ verbose = true) := by
  simp only [Runner.fit] at h
  cases hk : hs 0 with
  | some c =>
    rw [callHook, hk] at h
    have htrX : ([] : Trace) = tr' := congrArg Prod.fst h
    have heX : (Except.error (Err.hookExc c) : Except Err (RState × ℕ)) = .error e :=
      congrArg Prod.snd h
    have he : e = .hookExc c := by cases heX; rfl
    exact Or.inl ⟨c, he, by rw [← htrX]; exact hk⟩
  | none =>
    rw [callHook, hk] at h
    simp only [] at h
    split at h
    next trX err heq =>
      have htrX : trX = tr' := congrArg Prod.fst h
      have heX : (Except.error err : Except Err (RState × ℕ)) = .error e :=
        congrArg Prod.snd h
      have he : e = err := by cases heX; rfl
      subst he
      subst htrX
      obtain ⟨Δ, htr, hcl⟩ := fitEpochs_err (List.range' s (E - s)) _ _ 1 heq
      rcases hcl with ⟨c, he1, himp⟩ | ⟨c, he1, hbat, h1, h2, h3⟩ | hrest | hrest
      · exact Or.inl ⟨c, he1, himp (by simp)⟩
      · refine Or.inr (Or.inl ⟨c, he1, hbat, ?_, ?_, ?_⟩) <;>
          (rw [htr]; simp [countH_cons, countH_append] <;> omega)
      · exact Or.inr (Or.inr (Or.inl hrest))
      · exact Or.inr (Or.inr (Or.inr hrest))
    next trX stX kX heq =>
      obtain ⟨Δ, htr, F⟩ := fitEpochs_ok (List.range' s (E - s)) _ _ 1 heq
      have hd := F.dlen
      have hke := F.k_eq
      cases hk2 : hs kX with
      | some c =>
        rw [callHook, hk2] at h
        have htrX : trX = tr' := congrArg Prod.fst h
        have heX : (Except.error (Err.hookExc c) : Except Err (RState × ℕ)) = .error e :=
          congrArg Prod.snd h
        have he : e = .hookExc c := by cases heX; rfl
        subst htrX
        refine Or.inl ⟨c, he, ?_⟩
        have hx : trX.length = kX := by
          rw [htr, List.length_append, hd, hke]
          simp
        rw [hx]
        exact hk2
      | none =>
        rw [callHook, hk2] at h
        have heX : (Except.ok (stX, kX + 1) : Except Err (RState × ℕ)) = .error e :=
          congrArg Prod.snd h
        cases heX

/-- Every batch of the demo loader computes without raising. -/
theorem demoLoaderGood : GoodBatches demoLoader.batches := by
  intro b hb
  simp [demoLoader] at hb
  rcases hb with rfl | rfl | rfl
  · exact ⟨1, [2], rfl⟩
  · exact ⟨3, [4], rfl⟩
  · exact ⟨5, [6], rfl⟩

/-- Callbacks that raise exception `9` at the fourth broadcast of the run
(the `on_batch_end` of the first training batch) and behave elsewhere. -/
def c9hooks : ℕ → Option ℕ := fun n => if n = 3 then some 9 else none

/-- A two-batch source whose second batch raises exception `7` inside the
step logic. -/
def c9badLoader : Loader := ⟨[okBatch 1 [], ⟨.exc 7⟩], true, some 4⟩

/-- C9: failures propagate unmodified to the direct caller of `fit`.
When the data pipeline is well-formed (sources expose a length, no batch
raises) and the progress display is off, any error escaping `fit` is
exactly the exception some callback hook raised — payload intact,
surfaced at the very broadcast where it was raised and never re-entered.
When instead the callbacks are well-behaved, any error escaping `fit` is
exactly the exception raised inside the single-step logic on one of the
batches — payload intact, nothing caught, nothing retried: the epoch in
progress is left unfinished (one more `on_epoch_begin` than
`on_epoch_end` broadcast, so its meters were never finalized into an
epoch-end snapshot, and one more `on_batch_begin` than `on_batch_end`)
and `on_train_end` is never broadcast. -/
theorem failures_propagate :
    (∀ (hs : ℕ → Option ℕ) (nm : ℕ) (st0 : RState) (Lt : Loader) (steps : Option ℕ)
       (vl : Option Loader) (vs : Option ℕ) (E s : ℕ) (tr' : Trace) (e : Err),
       Runner.fit hs nm false st0 Lt steps vl vs E s = (tr', .error e) →
       Lt.hasLen = true →
       (∀ vloader, vl = some vloader → vloader.hasLen = true) →
       GoodBatches Lt.batches →
       (∀ vloader, vl = some vloader → GoodBatches vloader.batches) →
       ∃ c, e = .hookExc c ∧ hs tr'.length = some c) ∧
    (∀ (hs : ℕ → Option ℕ) (nm : ℕ) (st0 : RState) (Lt : Loader) (steps : Option ℕ)
       (vl : Option Loader) (vs : Option ℕ) (E s : ℕ) (tr' : Trace) (e : Err),
       NoHookExc hs →
       Runner.fit hs nm false st0 Lt steps vl vs E s = (tr', .error e) →
       Lt.hasLen = true →
       (∀ vloader, vl = some vloader → vloader.hasLen = true) →
       ∃ c, e = .stepExc c ∧
         ((∃ x ∈ Lt.batches, x.res = .exc c) ∨
          (∃ vloader, vl = some vloader ∧ ∃ x ∈ vloader.batches, x.res = .exc c)) ∧
         countH .on_epoch_end tr' + 1 = countH .on_epoch_begin tr' ∧
         countH .on_batch_end tr' + 1 = countH .on_batch_begin tr' ∧
         countH .on_train_end tr' = 0) := by
  constructor
  · intro hs nm st0 Lt steps vl vs E s tr' e h hLt hVl hG hGv
    rcases fit_err h with ⟨c, he, hk⟩ | ⟨c, he, hbat, -⟩ | ⟨he, hlen⟩ | ⟨he, hvb⟩
    · exact ⟨c, he, hk⟩
    · rcases hbat with ⟨x, hx, hres⟩ | ⟨vloader, hvl, x, hx, hres⟩
      · obtain ⟨l, ms, hv⟩ := hG x hx
        rw [hres] at hv
        cases hv
      · obtain ⟨l, ms, hv⟩ := hGv vloader hvl x hx
        rw [hres] at hv
        cases hv
    · rcases hlen with hf | ⟨vloader, hvl, hf⟩
      · rw [hLt] at hf; cases hf
      · have hx := hVl vloader hvl
        rw [hx] at hf
        cases hf
    · cases hvb
  · intro hs nm st0 Lt steps vl vs E s tr' e hno h hLt hVl
    rcases fit_err h with ⟨c, he, hk⟩ | hstep | ⟨he, hlen⟩ | ⟨he, hvb⟩
    · rw [hno tr'.length] at hk
      cases hk
    · exact hstep
    · rcases hlen with hf | ⟨vloader, hvl, hf⟩
      · rw [hLt] at hf; cases hf
      · have hx := hVl vloader hvl
        rw [hx] at hf
        cases hf
    · cases hvb

/-- C9 witness: both halves at concrete runs — a callback raising `9`
at the fourth broadcast of a `fit` over the demo loader (the error
surfaces as `hookExc 9` after exactly 3 broadcasts), and a batch raising
`7` in a two-batch `fit` with well-behaved callbacks (the error surfaces
as `stepExc 7` with the open epoch and open batch left unclosed and no
`on_train_end`). -/
theorem failures_propagate_witness :
    (∃ c, (Err.hookExc 9 : Err) = .hookExc c ∧
       c9hooks (Runner.fit c9hooks 0 false (RState.mk0 0) demoLoader none
         none none 1 0).1.length = some c) ∧
    (∃ c, (Err.stepExc 7 : Err) = .stepExc c ∧
       ((∃ x ∈ c9badLoader.batches, x.res = .exc c) ∨
        (∃ vloader, (none : Option Loader) = some vloader ∧
          ∃ x ∈ vloader.batches, x.res = .exc c)) ∧
       countH .on_epoch_end (Runner.fit noFailHooks 0 false (RState.mk0 0) c9badLoader
           none none none 1 0).1 + 1 =
         countH .on_epoch_begin (Runner.fit noFailHooks 0 false (RState.mk0 0) c9badLoader
           none none none 1 0).1 ∧
       countH .on_batch_end (Runner.fit noFailHooks 0 false (RState.mk0 0) c9badLoader
           none none none 1 0).1 + 1 =
         countH .on_batch_begin (Runner.fit noFailHooks 0 false (RState.mk0 0) c9badLoader
           none none none 1 0).1 ∧
       countH .on_train_end (Runner.fit noFailHooks 0 false (RState.mk0 0) c9badLoader
           none none none 1 0).1 = 0) :=
  ⟨failures_propagate.1 c9hooks 0 (RState.mk0 0) demoLoader none none none 1 0
     (Runner.fit c9hooks 0 false (RState.mk0 0) demoLoader none none none 1 0).1
     (.hookExc 9) rfl rfl (fun v hv => nomatch hv) demoLoaderGood (fun v hv => nomatch hv),
   failures_propagate.2 noFailHooks 0 (RState.mk0 0) c9badLoader none none none 1 0
     (Runner.fit noFailHooks 0 false (RState.mk0 0) c9badLoader none none none 1 0).1
     (.stepExc 7) (fun n => rfl) rfl rfl (fun v hv => nomatch hv)⟩
